import Mathlib

/-!
Verification of the adiff word/line diff tool (`adiff.py`).

Strings are modelled as `List Char`.  The Python regex engine is external to
the repository: a boundary pattern's behaviour is abstracted as the list of
match spans `(start, end)` that `re.finditer` yields, constrained by the
`validMatches` invariant that `finditer` guarantees (spans in order, each
within the string, consecutive spans non-overlapping).  Every function below
is a direct translation of the corresponding Python definition.
-/

set_option autoImplicit false

abbrev Str := List Char

/-- Python slice `s[a:b]` for `0 ≤ a`, `0 ≤ b` (clamping semantics). -/
def pySlice (s : Str) (a b : Nat) : Str := (s.drop a).take (b - a)

/-- countlines from adiff.py: `s.count("\n") + int(bool(s and not s.endswith("\n")))`. -/
def countlines (s : Str) : Nat :=
  s.count '\n' + (if s ≠ [] ∧ s.getLast? ≠ some '\n' then 1 else 0)

/-- Python `str.splitlines(False)` restricted to `'\n'` terminators (the only
line terminator `adiff.py` itself ever counts or produces). -/
def splitlines : Str → List Str
  | [] => []
  | c :: rest =>
    if c = '\n' then [] :: splitlines rest
    else
      match splitlines rest with
      | [] => [[c]]
      | l :: ls => (c :: l) :: ls

/-- One step of the inner `while` of `isplit`: absorb a zero-width separator
that sits exactly at the start of the next separator. -/
def isplitAbsorb : (Nat × Nat) → List (Nat × Nat) → (Nat × Nat) × List (Nat × Nat)
  | m, [] => (m, [])
  | m, m' :: rest =>
    if m.1 = m.2 ∧ m.2 = m'.1 then isplitAbsorb m' rest else (m, m' :: rest)

/-- The body of `isplit`'s generator loop.  `prevEnd` is `prevm.end()`, `m` the
current match, `rest` the remaining matches; `fuel` be a bound on `rest.length`. -/
def isplitGo (s : Str) : Nat → Nat → (Nat × Nat) → List (Nat × Nat) → List Str
  | 0, prevEnd, m, _ => [pySlice s m.2 s.length ++ pySlice s prevEnd prevEnd]
  | fuel + 1, prevEnd, m, rest =>
    if m.1 = m.2 ∧ m.1 = prevEnd then
      match rest with
      | [] => [pySlice s m.2 s.length]
      | m' :: rest' => isplitGo s fuel m.2 m' rest'
    else
      let p := isplitAbsorb m rest
      let content := pySlice s prevEnd p.1.1
      if p.1.1 = s.length then [content]
      else
        content :: pySlice s p.1.1 p.1.2 ::
          (match p.2 with
           | [] => [pySlice s p.1.2 s.length]
           | m' :: rest' => isplitGo s fuel p.1.2 m' rest')

/-- `isplit(patt, s)` from adiff.py, with the pattern abstracted by its list of
match spans `ms` (what `re.finditer(patt, s)` yields). -/
def isplit (ms : List (Nat × Nat)) (s : Str) : List Str :=
  match ms with
  | [] => [s]
  | m :: rest => isplitGo s (rest.length + 1) 0 m rest

/-- The invariant `re.finditer` guarantees for its match spans: starting from
lower bound `lb = 0`, each span `(a, b)` has `lb ≤ a ≤ b ≤ L` and the next
spans start at or after `b`. -/
def validMatches (L : Nat) : Nat → List (Nat × Nat) → Bool
  | _, [] => true
  | lb, m :: rest =>
    decide (lb ≤ m.1) && decide (m.1 ≤ m.2) && decide (m.2 ≤ L) &&
      validMatches L m.2 rest

structure Token where
  word : Str
  sep : Str
  idx : Int
  deriving DecidableEq, Repr, Inhabited

/-- `str(token)` (Python `Token.__str__`): `word + sep`. -/
def tokStr (t : Token) : Str := t.word ++ t.sep

/-- Python-2 truthiness of a Token (`Token.__nonzero__`): `bool(word or sep)`. -/
def tokTruthy (t : Token) : Bool := !t.word.isEmpty || !t.sep.isEmpty

/-- Truthiness of `Tokenizer.join`'s result (`None` or a Token). -/
def optTruthy : Option Token → Bool
  | none => false
  | some t => tokTruthy t

/-- Python `x or fallback` on an optional token. -/
def pyOr (x : Option Token) (fb : Token) : Token :=
  match x with
  | none => fb
  | some t => if tokTruthy t then t else fb

/-- The parity fix in `Tokenizer.__init__`: make the split list even by
appending an empty separator or dropping a trailing empty piece. -/
def fixParity (splits : List Str) : List Str :=
  match splits.getLast? with
  | none => []
  | some last => if last ≠ [] then splits ++ [[]] else splits.dropLast

/-- Pair up `(word, sep)` pieces positionally, numbering tokens from `i`
(`map(Token, splits[::2], splits[1::2], range(len(splits)//2))`). -/
def pairUp : Nat → List Str → List Token
  | _, [] => []
  | _, [_] => []
  | i, w :: sep :: rest => ⟨w, sep, (i : Int)⟩ :: pairUp (i + 1) rest

/-- `Tokenizer(s, boundary)`: the token list, with the boundary pattern
abstracted by its finditer spans `ms`. -/
def tokenize (ms : List (Nat × Nat)) (s : Str) : List Token :=
  pairUp 0 (fixParity (isplit ms s))

/-- `Tokenizer.join(first, limit)` (the asserts are preconditions; the
function below is what the code computes when they hold). -/
def joinTok (toks : List Token) (first limit : Nat) : Option Token :=
  if limit ≤ first then none
  else if limit = first + 1 then some (toks.getD first default)
  else
    let last := limit - 1
    some ⟨((((toks.drop first).take (last - first)).map tokStr).flatten)
            ++ (toks.getD last default).word,
          (toks.getD last default).sep, (first : Int)⟩

/-- finditer spans of the literal pattern `\n` on `s`, starting at offset `i`. -/
def nlMatchesFrom : Nat → Str → List (Nat × Nat)
  | _, [] => []
  | i, c :: rest =>
    (if c = '\n' then [(i, i + 1)] else []) ++ nlMatchesFrom (i + 1) rest

def nlMatches (s : Str) : List (Nat × Nat) := nlMatchesFrom 0 s

/-- `Tokenizer(s, r"\n")`, as used by the line-oriented differs. -/
def tokenizeNL (s : Str) : List Token := tokenize (nlMatches s) s

/-- Python whitespace characters (`\s` over the inputs we evaluate). -/
def isPySpace (c : Char) : Bool :=
  c = ' ' || c = '\t' || c = '\n' || c = '\r' || c = '\x0b' || c = '\x0c'

/-- Positions of whitespace characters from offset `i`. -/
def wsSingles : Nat → Str → List Nat
  | _, [] => []
  | i, c :: rest => (if isPySpace c then [i] else []) ++ wsSingles (i + 1) rest

/-- Group consecutive positions into maximal runs. -/
def coalesceGo : Nat → Nat → List Nat → List (Nat × Nat)
  | st, en, [] => [(st, en)]
  | st, en, p :: rest =>
    if p = en then coalesceGo st (en + 1) rest
    else (st, en) :: coalesceGo p (p + 1) rest

/-- finditer spans of `\s+` on `s`: maximal runs of whitespace. -/
def wsMatches (s : Str) : List (Nat × Nat) :=
  match wsSingles 0 s with
  | [] => []
  | p :: rest => coalesceGo p (p + 1) rest

/-- `Tokenizer(s, r"\s+")`, the default word-diff tokenizer. -/
def tokenizeWS (s : Str) : List Token := tokenize (wsMatches s) s

/-! ### The sequence matcher

`difflib.SequenceMatcher` (no junk, inputs short enough that autojunk is
inert) is modelled from its documented contract, which §4.3 of the spec also
prescribes: `find_longest_match` returns the longest matching block, earliest
in `a` then earliest in `b` among ties; `get_matching_blocks` recursively
splits around it, merges adjacent blocks, and appends the `(la, lb, 0)`
sentinel. -/

structure MBT where
  i : Nat
  j : Nat
  k : Nat
  deriving DecidableEq, Repr, Inhabited

/-- Length of the common run of `a`/`b` starting at `i`/`j`, stopping at
`ahi`/`bhi`; `fuel` bounds `ahi - i`. -/
def runLenF (a b : List Str) (ahi bhi : Nat) : Nat → Nat → Nat → Nat
  | 0, _, _ => 0
  | fuel + 1, i, j =>
    if i < ahi ∧ j < bhi ∧ a.getD i [] = b.getD j [] then
      runLenF a b ahi bhi fuel (i + 1) (j + 1) + 1
    else 0

def runLen (a b : List Str) (ahi bhi i j : Nat) : Nat :=
  runLenF a b ahi bhi (ahi - i) i j

/-- Keep the current best unless the candidate is strictly longer (difflib's
`k > bestsize` update rule, which realises the earliest-in-a/earliest-in-b
tie-break when candidates are scanned in order). -/
def pickBest (best c : MBT) : MBT := if best.k < c.k then c else best

/-- `find_longest_match(alo, ahi, blo, bhi)`. -/
def flm (a b : List Str) (alo ahi blo bhi : Nat) : MBT :=
  ((List.range' alo (ahi - alo)).flatMap fun i =>
    (List.range' blo (bhi - blo)).map fun j => MBT.mk i j (runLen a b ahi bhi i j)
  ).foldl pickBest ⟨alo, blo, 0⟩

/-- The recursive division of `get_matching_blocks` (its queue is equivalent
to in-order recursion followed by the sort); `fuel` bounds `ahi - alo`. -/
def rawBlocksF (a b : List Str) : Nat → Nat → Nat → Nat → Nat → List MBT
  | 0, _, _, _, _ => []
  | fuel + 1, alo, ahi, blo, bhi =>
    let t := flm a b alo ahi blo bhi
    if t.k = 0 then []
    else
      rawBlocksF a b fuel alo t.i blo t.j ++
        t :: rawBlocksF a b fuel (t.i + t.k) ahi (t.j + t.k) bhi

def rawBlocks (a b : List Str) : List MBT :=
  rawBlocksF a b a.length 0 a.length 0 b.length

/-- The adjacent-block merging pass of `get_matching_blocks`. -/
def mergeAdj : MBT → List MBT → List MBT
  | cur, [] => if cur.k ≠ 0 then [cur] else []
  | cur, t :: rest =>
    if cur.i + cur.k = t.i ∧ cur.j + cur.k = t.j then
      mergeAdj ⟨cur.i, cur.j, cur.k + t.k⟩ rest
    else
      (if cur.k ≠ 0 then [cur] else []) ++ mergeAdj t rest

/-- `SequenceMatcher(None, a, b).get_matching_blocks()`. -/
def matchingBlocks (a b : List Str) : List MBT :=
  mergeAdj ⟨0, 0, 0⟩ (rawBlocks a b) ++ [⟨a.length, b.length, 0⟩]

/-! ### Differ.blocks -/

inductive Op where
  | c | l | r | d
  deriving DecidableEq, Repr

structure Delta where
  op : Op
  lhs : Token
  rhs : Token
  deriving DecidableEq, Repr

instance : Inhabited Delta := ⟨⟨Op.c, default, default⟩⟩

/-- `"d" if lhs and rhs else "l" if lhs else "r" if rhs else None`. -/
def classify (lhs rhs : Option Token) : Option Op :=
  if optTruthy lhs ∧ optTruthy rhs then some Op.d
  else if optTruthy lhs then some Op.l
  else if optTruthy rhs then some Op.r
  else none

/-- The loop body of `Differ.blocks()` over the matching blocks. -/
def blocksGo (atoks btoks : List Token) : Nat → Nat → List MBT → List Delta
  | _, _, [] => []
  | curi, curj, t :: rest =>
    let lhs := joinTok atoks curi t.i
    let rhs := joinTok btoks curj t.j
    (match classify lhs rhs with
     | some op => [⟨op, pyOr lhs ⟨[], [], (t.i : Int) - 1⟩,
                        pyOr rhs ⟨[], [], (t.j : Int) - 1⟩⟩]
     | none => []) ++
    (if t.k > 0 then
      [⟨Op.c, (joinTok atoks t.i (t.i + t.k)).getD default,
              (joinTok btoks t.j (t.j + t.k)).getD default⟩]
     else []) ++
    blocksGo atoks btoks (t.i + t.k) (t.j + t.k) rest

/-- Python `str.lower` on our character lists. -/
def lowerStr (s : Str) : Str := s.map Char.toLower

/-- The word keys handed to the sequence matcher
(`[lower(t.word) for t in toks]`). -/
def tokenKeys (ign : Bool) (toks : List Token) : List Str :=
  toks.map fun t => if ign then lowerStr t.word else t.word

/-- `Differ(a, b, boundary, ignore_case).blocks()` on pre-built token lists. -/
def differBlocks (ign : Bool) (atoks btoks : List Token) : List Delta :=
  blocksGo atoks btoks 0 0 (matchingBlocks (tokenKeys ign atoks) (tokenKeys ign btoks))

/-- Swap the two sides of a delta and exchange the left-only/right-only labels. -/
def swapDelta (d : Delta) : Delta :=
  ⟨match d.op with | Op.l => Op.r | Op.r => Op.l | o => o, d.rhs, d.lhs⟩

/-- Mirror a matching block (exchange the roles of the two sequences). -/
def mirrorMBT (t : MBT) : MBT := ⟨t.j, t.i, t.k⟩

/-! ### LineDiffer reduction and the renderers -/

/-- The reduction loop in `LineDiffer.__init__` for a non-newline boundary:
rebuild a pair of line-diffable strings from a word-level block stream. -/
def reduceBlocks (reverse : Bool) : List Delta → Str × Str
  | [] => ([], [])
  | b :: rest =>
    let p := reduceBlocks reverse rest
    match b.op with
    | Op.c =>
      let s := tokStr (if reverse then b.rhs else b.lhs)
      (s ++ p.1, s ++ p.2)
    | Op.l => (tokStr b.lhs ++ p.1, p.2)
    | Op.r => (p.1, tokStr b.rhs ++ p.2)
    | Op.d =>
      let sep := if reverse then b.rhs.sep else b.lhs.sep
      (b.lhs.word ++ sep ++ p.1, b.rhs.word ++ sep ++ p.2)

/-- `LineDiffer._addnl`. -/
def addnl (s : Str) : Str :=
  if s.getLast? = some '\n' then s
  else s ++ '\n' :: "\\ No newline at end of file\n".toList

/-- `re.sub(r"(?m)^", p, w)` with the first insertion split off: insert `p`
after every newline of `w` (including a trailing one). -/
def insertPre (p : Str) : Str → Str
  | [] => []
  | c :: rest =>
    if c = '\n' then '\n' :: (p ++ insertPre p rest)
    else c :: insertPre p rest

/-- `LineDiffer._preface(s, tok)`. -/
def preface (p : Str) (t : Token) : Str :=
  addnl ((p ++ insertPre p t.word) ++ t.sep)

/-- Decimal digits. -/
def digitChar : Nat → Char
  | 0 => '0' | 1 => '1' | 2 => '2' | 3 => '3' | 4 => '4'
  | 5 => '5' | 6 => '6' | 7 => '7' | 8 => '8' | _ => '9'

def natToStrF : Nat → Nat → List Char
  | 0, _ => []
  | fuel + 1, n =>
    if n < 10 then [digitChar n] else natToStrF fuel (n / 10) ++ [digitChar (n % 10)]

def natToStr (n : Nat) : List Char := natToStrF (n + 1) n

/-- Python `"%d" % z`. -/
def intToStr (z : Int) : List Char :=
  if z < 0 then '-' :: natToStr z.natAbs else natToStr z.toNat

/-! #### Normal renderer -/

/-- `NormalDiffer._linerange`. -/
def normalLinerange (t : Token) : Str :=
  let count := countlines t.word
  intToStr (t.idx + 1) ++
    (if count > 1 then ',' :: intToStr (t.idx + (count : Int)) else [])

/-- One non-common hunk of `NormalDiffer.hunks()`. -/
def normalHunk (b : Delta) : Str :=
  (normalLinerange b.lhs ++
     [match b.op with | Op.l => 'd' | Op.r => 'a' | _ => 'c'] ++
     normalLinerange b.rhs ++ ['\n']) ++
  (if tokTruthy b.lhs then
     preface "< ".toList b.lhs ++ (if tokTruthy b.rhs then "---\n".toList else [])
   else []) ++
  (if tokTruthy b.rhs then preface "> ".toList b.rhs else [])

/-- `NormalDiffer.get_diff()` on a block stream. -/
def normalDiff (ds : List Delta) : Str :=
  (ds.filterMap fun b => if b.op = Op.c then none else some (normalHunk b)).flatten

/-! #### Context/Unified hunk assembly -/

inductive TrimDir where
  | head | tail
  deriving DecidableEq

/-- Python `ls[-c:]` (note `[-0:]` is the whole list). -/
def pyTakeLast (c : Nat) (ls : List Str) : List Str :=
  if c = 0 then ls else ls.drop (ls.length - c)

/-- `ContextDiffer._trim(delta, dir, inner)`. -/
def trimDelta (ctx : Nat) (d : Delta) (dir : TrimDir) (inner : Bool) : Delta × Bool :=
  let lines := countlines (tokStr d.lhs)
  if lines ≤ (if inner then ctx * 2 else ctx) then (d, false)
  else
    let ls := splitlines d.lhs.word
    let word :=
      match dir with
      | TrimDir.head => List.intercalate ['\n'] (ls.take ctx)
      | TrimDir.tail => List.intercalate ['\n'] (pyTakeLast ctx ls)
    let adjust : Int := match dir with | TrimDir.head => 0 | TrimDir.tail => (lines : Int) - (ctx : Int)
    (⟨Op.c, ⟨word, d.lhs.sep, d.lhs.idx + adjust⟩, ⟨word, d.rhs.sep, d.rhs.idx + adjust⟩⟩,
     true)

/-- The inner `while` of `ContextDiffer.context_blocks`: returns the finished
hunk, the `before` carried to the next hunk, and the unconsumed stream. -/
def innerLoop (ctx : Nat) : List Delta → List Delta → List Delta × Option Delta × List Delta
  | acc, [] => (acc, none, [])
  | acc, [d] => (acc ++ [d], none, [])
  | acc, d :: m :: rest =>
    let p := trimDelta ctx m TrimDir.head (!rest.isEmpty)
    if p.2 then (acc ++ [d, p.1], some m, rest)
    else innerLoop ctx (acc ++ [d, p.1]) rest

/-- The outer `while` of `context_blocks`; `fuel` bounds the stream length. -/
def outerF (ctx : Nat) : Nat → Option Delta → List Delta → List (List Delta)
  | 0, _, _ => []
  | _, _, [] => []
  | fuel + 1, before, stream =>
    let acc0 :=
      match before with
      | some b => [(trimDelta ctx b TrimDir.tail false).1]
      | none => []
    let r := innerLoop ctx acc0 stream
    r.1 :: outerF ctx fuel r.2.1 r.2.2

/-- `ContextDiffer.context_blocks()` on a block stream. -/
def contextBlocks (ctx : Nat) (ds : List Delta) : List (List Delta) :=
  match ds with
  | [] => []
  | d :: rest =>
    if d.op = Op.c then outerF ctx rest.length (some d) rest
    else outerF ctx ds.length none ds

/-- Select the side of a delta. -/
def sideTok (b : Delta) : Bool → Token
  | true => b.lhs
  | false => b.rhs

/-- The op letter that owns a side (`side[0]`): `l` for lhs, `r` for rhs. -/
def sideOp : Bool → Op
  | true => Op.l
  | false => Op.r

/-- `ContextDiffer._linerange(blocks, side)`. -/
def ctxLinerange (blocks : List Delta) (lhsSide : Bool) : Str :=
  let t := sideTok (blocks.headD default) lhsSide
  let count := (blocks.map fun b => countlines (tokStr (sideTok b lhsSide))).sum
  intToStr (t.idx + 1) ++ (if count > 1 then ',' :: intToStr (t.idx + (count : Int)) else [])

/-- `ContextDiffer._hunk(blocks, side)`. -/
def ctxHunkSide (blocks : List Delta) (lhsSide : Bool) : Str :=
  if ¬ blocks.any (fun b => b.op = sideOp lhsSide ∨ b.op = Op.d) then []
  else
    (blocks.map fun b =>
      if b.op = Op.c then preface "  ".toList b.lhs
      else if b.op = Op.d then preface "! ".toList (sideTok b lhsSide)
      else if b.op = sideOp lhsSide then
        preface (if lhsSide then "- ".toList else "+ ".toList) (sideTok b lhsSide)
      else []).flatten

/-- `ContextDiffer.hunks()` / `get_diff()`. -/
def contextDiff (ctx : Nat) (ds : List Delta) : Str :=
  ((contextBlocks ctx ds).map fun blocks =>
    "***************\n*** ".toList ++ ctxLinerange blocks true ++ " ****\n".toList ++
      ctxHunkSide blocks true ++
      "--- ".toList ++ ctxLinerange blocks false ++ " ----\n".toList ++
      ctxHunkSide blocks false).flatten

/-! #### Unified renderer -/

/-- `UnifiedDiffer._linerange(blocks, side)`. -/
def uniLinerange (blocks : List Delta) (lhsSide : Bool) : Str :=
  let t := sideTok (blocks.headD default) lhsSide
  let count := (blocks.map fun b => countlines (tokStr (sideTok b lhsSide))).sum
  intToStr (t.idx + 1) ++ (if count > 1 then ',' :: natToStr count else [])

/-- `UnifiedDiffer._hunk(blocks)`. -/
def uniHunkBody (blocks : List Delta) : Str :=
  (blocks.map fun b =>
    match b.op with
    | Op.c => preface [' '] b.lhs
    | Op.l => preface ['-'] b.lhs
    | Op.r => preface ['+'] b.rhs
    | Op.d => preface ['-'] b.lhs ++ preface ['+'] b.rhs).flatten

/-- `UnifiedDiffer.hunks()` / `get_diff()`. -/
def unifiedDiff (ctx : Nat) (ds : List Delta) : Str :=
  ((contextBlocks ctx ds).map fun blocks =>
    "@@ -".toList ++ uniLinerange blocks true ++ " +".toList ++
      uniLinerange blocks false ++ " @@\n".toList ++ uniHunkBody blocks).flatten

/-! #### Word renderer -/

/-- One hunk of `WordDiffer.hunks()`. -/
def wordHunk (sd ed si ei : Str) (b : Delta) : Str :=
  match b.op with
  | Op.c => b.lhs.word ++ b.lhs.sep
  | Op.l => sd ++ b.lhs.word ++ ed ++ b.lhs.sep
  | Op.r => si ++ b.rhs.word ++ ei ++ b.rhs.sep
  | Op.d => sd ++ b.lhs.word ++ ed ++ si ++ b.rhs.word ++ ei ++ b.rhs.sep

/-- `WordDiffer.get_diff()` on a block stream. -/
def wordDiff (sd ed si ei : Str) (ds : List Delta) : Str :=
  (ds.map (wordHunk sd ed si ei)).flatten

/-- The full unified-diff pipeline for the default `\n` boundary. -/
def unifiedDiffOf (ctx : Nat) (ign : Bool) (a b : Str) : Str :=
  unifiedDiff ctx (differBlocks ign (tokenizeNL a) (tokenizeNL b))

/-- The full normal-diff pipeline for the default `\n` boundary. -/
def normalDiffOf (ign : Bool) (a b : Str) : Str :=
  normalDiff (differBlocks ign (tokenizeNL a) (tokenizeNL b))

/-- The full word-diff pipeline with default markers and `\s+` boundary. -/
def wordDiffOf (ign : Bool) (a b : Str) : Str :=
  wordDiff "[-".toList "-]".toList "\x7b+".toList "+\x7d".toList
    (differBlocks ign (tokenizeWS a) (tokenizeWS b))

/-! ### Specification predicates used by the theorems -/

/-- Concatenation of `word + sep` over a token list. -/
def concatTok (toks : List Token) : Str := (toks.map tokStr).flatten

/-- Concatenation of `word + sep` over the token range `[a, b)`. -/
def segStr (toks : List Token) (a b : Nat) : Str :=
  (((toks.drop a).take (b - a)).map tokStr).flatten

/-- Concatenation of the lhs texts of a block stream. -/
def lhsConcat (ds : List Delta) : Str := (ds.map fun d => tokStr d.lhs).flatten

/-- Concatenation of the rhs texts of a block stream. -/
def rhsConcat (ds : List Delta) : Str := (ds.map fun d => tokStr d.rhs).flatten

/-- Every `(content, separator)` pair of a split list has a nonempty side. -/
def pairsTruthy : List Str → Prop
  | [] => True
  | [_] => True
  | c :: sp :: rest => (c ≠ [] ∨ sp ≠ []) ∧ pairsTruthy rest

/-- Every token is truthy (nonempty word or separator). -/
def allTruthy (toks : List Token) : Prop := ∀ t ∈ toks, tokTruthy t = true

/-- The coverage invariant of a matching-block list: blocks in order starting
from `(curi, curj)`, each within `[0, la] × [0, lb]`, ending exactly at
`(la, lb)`. -/
def Covers (la lb : Nat) : Nat → Nat → List MBT → Prop
  | curi, curj, [] => curi = la ∧ curj = lb
  | curi, curj, t :: rest =>
    curi ≤ t.i ∧ curj ≤ t.j ∧ t.i + t.k ≤ la ∧ t.j + t.k ≤ lb ∧
      Covers la lb (t.i + t.k) (t.j + t.k) rest

/-- Ordered nonempty matching blocks between `(curi, curj)` and `(ahi, bhi)`. -/
def Sandwiched : Nat → Nat → List MBT → Nat → Nat → Prop
  | curi, curj, [], ahi, bhi => curi ≤ ahi ∧ curj ≤ bhi
  | curi, curj, t :: rest, ahi, bhi =>
    curi ≤ t.i ∧ curj ≤ t.j ∧ 1 ≤ t.k ∧
      Sandwiched (t.i + t.k) (t.j + t.k) rest ahi bhi

/-- Two matching blocks that do not touch on both sides at once. -/
def nonAdjacent (t1 t2 : MBT) : Prop := ¬(t1.i + t1.k = t2.i ∧ t1.j + t1.k = t2.j)

/-- Strict alternation of common and non-common blocks. -/
def Alternating : List Delta → Prop
  | [] => True
  | [_] => True
  | x :: y :: rest => ((x.op = Op.c) ↔ ¬ y.op = Op.c) ∧ Alternating (y :: rest)

/-- Text of an optional token (`None` renders as nothing). -/
def optStr : Option Token → Str
  | none => []
  | some t => tokStr t

/-- A token whose separator is a single newline or empty — the only separator
shapes a newline-boundary tokenizer produces. -/
def sepNormal (t : Token) : Prop := t.sep = ['\n'] ∨ t.sep = []

/-- The no-trailing-newline marker line. -/
def noNlMarker : Str := "\\ No newline at end of file".toList

/-- The ten decimal digit characters. -/
def digitsList : Str := "0123456789".toList

/-! ### Reconstruction: isplit and the Tokenizer are lossless -/

theorem pySlice_append_drop (s : Str) (a b : Nat) (hab : a ≤ b) :
    pySlice s a b ++ s.drop b = s.drop a := by
  have h : s.drop b = (s.drop a).drop (b - a) := by
    rw [List.drop_drop]
    congr 1
    omega
  rw [pySlice, h, List.take_append_drop]

theorem pySlice_to_length (s : Str) (a : Nat) : pySlice s a s.length = s.drop a := by
  rw [pySlice]
  exact List.take_of_length_le (by simp)

theorem pySlice_ne_nil (s : Str) (a b : Nat) (h1 : a < b) (h2 : a < s.length) :
    pySlice s a b ≠ [] := by
  have hlen : (pySlice s a b).length = min (b - a) (s.length - a) := by
    simp [pySlice]
  intro hcon
  rw [hcon] at hlen
  simp at hlen
  omega

theorem validMatches_cons {L lb : Nat} {m : Nat × Nat} {rest : List (Nat × Nat)}
    (h : validMatches L lb (m :: rest) = true) :
    lb ≤ m.1 ∧ m.1 ≤ m.2 ∧ m.2 ≤ L ∧ validMatches L m.2 rest = true := by
  simp only [validMatches, Bool.and_eq_true, decide_eq_true_eq] at h
  exact ⟨h.1.1.1, h.1.1.2, h.1.2, h.2⟩

theorem isplitAbsorb_spec (L : Nat) :
    ∀ (rest : List (Nat × Nat)) (m : Nat × Nat),
    m.1 ≤ m.2 → m.2 ≤ L → validMatches L m.2 rest = true →
    m.1 ≤ (isplitAbsorb m rest).1.1 ∧
    (isplitAbsorb m rest).1.1 ≤ (isplitAbsorb m rest).1.2 ∧
    (isplitAbsorb m rest).1.2 ≤ L ∧
    validMatches L (isplitAbsorb m rest).1.2 (isplitAbsorb m rest).2 = true ∧
    (isplitAbsorb m rest).2.length ≤ rest.length ∧
    ((isplitAbsorb m rest).1.1 = (isplitAbsorb m rest).1.2 →
      (isplitAbsorb m rest).1.1 = m.1 ∧ m.1 = m.2) := by
  intro rest
  induction rest with
  | nil =>
    intro m h1 h2 h3
    refine ⟨le_refl _, h1, h2, h3, le_refl _, fun hz => ⟨rfl, hz⟩⟩
  | cons m' rest' ih =>
    intro m h1 h2 h3
    obtain ⟨hb1, hb2, hb3, hb4⟩ := validMatches_cons h3
    by_cases hc : m.1 = m.2 ∧ m.2 = m'.1
    · have hrw : isplitAbsorb m (m' :: rest') = isplitAbsorb m' rest' := by
        simp [isplitAbsorb, hc]
      obtain ⟨g1, g2, g3, g4, g5, g6⟩ := ih m' hb2 hb3 hb4
      rw [hrw]
      refine ⟨?_, g2, g3, g4, Nat.le_succ_of_le g5, ?_⟩
      · calc m.1 ≤ m'.1 := by omega
          _ ≤ _ := g1
      · intro hz
        obtain ⟨e1, e2⟩ := g6 hz
        constructor
        · omega
        · exact hc.1
    · have hrw : isplitAbsorb m (m' :: rest') = (m, m' :: rest') := by
        simp [isplitAbsorb, hc]
      rw [hrw]
      exact ⟨le_refl _, h1, h2, h3, le_refl _, fun hz => ⟨rfl, hz⟩⟩

theorem isplitGo_flatten (s : Str) :
    ∀ (fuel : Nat) (prevEnd : Nat) (m : Nat × Nat) (rest : List (Nat × Nat)),
    rest.length < fuel →
    prevEnd ≤ m.1 → m.1 ≤ m.2 → m.2 ≤ s.length →
    validMatches s.length m.2 rest = true →
    (isplitGo s fuel prevEnd m rest).flatten = s.drop prevEnd := by
  intro fuel
  induction fuel with
  | zero => intro _ _ _ h; omega
  | succ fuel ih =>
    intro prevEnd m rest hfuel h1 h2 h3 hv
    by_cases hskip : m.1 = m.2 ∧ m.1 = prevEnd
    · cases rest with
      | nil =>
        simp only [isplitGo, if_pos hskip, List.flatten_cons, List.flatten_nil,
          List.append_nil]
        rw [pySlice_to_length]
        congr 1
        omega
      | cons m' rest' =>
        obtain ⟨hb1, hb2, hb3, hb4⟩ := validMatches_cons hv
        simp only [isplitGo, if_pos hskip]
        rw [ih m.2 m' rest' (by simp at hfuel ⊢; omega) hb1 hb2 hb3 hb4]
        congr 1
        omega
    · obtain ⟨g1, g2, g3, g4, g5, _⟩ := isplitAbsorb_spec s.length rest m h2 h3 hv
      have hpe : prevEnd ≤ (isplitAbsorb m rest).1.1 := le_trans h1 g1
      by_cases hend : (isplitAbsorb m rest).1.1 = s.length
      · simp only [isplitGo, if_neg hskip, if_pos hend, List.flatten_cons,
          List.flatten_nil, List.append_nil]
        rw [hend, ← pySlice_to_length]
      · simp only [isplitGo, if_neg hskip, if_neg hend]
        cases hrest2 : (isplitAbsorb m rest).2 with
        | nil =>
          simp only [List.flatten_cons, List.flatten_nil, List.append_nil]
          rw [pySlice_to_length, pySlice_append_drop s _ _ g2,
            pySlice_append_drop s _ _ hpe]
        | cons m' rest' =>
          rw [hrest2] at g4 g5
          obtain ⟨hb1, hb2, hb3, hb4⟩ := validMatches_cons g4
          simp only [List.flatten_cons, List.flatten_nil, List.append_nil]
          rw [ih _ m' rest' (by simp at g5 ⊢; omega) hb1 hb2 hb3 hb4,
            pySlice_append_drop s _ _ g2, pySlice_append_drop s _ _ hpe]

theorem isplit_flatten (ms : List (Nat × Nat)) (s : Str)
    (hv : validMatches s.length 0 ms = true) :
    (isplit ms s).flatten = s := by
  cases ms with
  | nil => simp [isplit]
  | cons m rest =>
    obtain ⟨hb1, hb2, hb3, hb4⟩ := validMatches_cons hv
    rw [isplit, isplitGo_flatten s (rest.length + 1) 0 m rest (by omega)
      (Nat.zero_le _) hb2 hb3 hb4, List.drop_zero]

theorem isplitAbsorb_length :
    ∀ (rest : List (Nat × Nat)) (m : Nat × Nat),
    (isplitAbsorb m rest).2.length ≤ rest.length := by
  intro rest
  induction rest with
  | nil => intro m; exact le_refl _
  | cons m' rest' ih =>
    intro m
    by_cases hc : m.1 = m.2 ∧ m.2 = m'.1
    · rw [show isplitAbsorb m (m' :: rest') = isplitAbsorb m' rest' by
        simp [isplitAbsorb, hc]]
      exact Nat.le_succ_of_le (ih m')
    · rw [show isplitAbsorb m (m' :: rest') = (m, m' :: rest') by
        simp [isplitAbsorb, hc]]

theorem isplitGo_length_odd (s : Str) :
    ∀ (fuel : Nat) (prevEnd : Nat) (m : Nat × Nat) (rest : List (Nat × Nat)),
    rest.length < fuel →
    (isplitGo s fuel prevEnd m rest).length % 2 = 1 := by
  intro fuel
  induction fuel with
  | zero => intro _ _ _ h; omega
  | succ fuel ih =>
    intro prevEnd m rest hfuel
    by_cases hskip : m.1 = m.2 ∧ m.1 = prevEnd
    · cases rest with
      | nil =>
        simp only [isplitGo, if_pos hskip, List.length_cons, List.length_nil]
      | cons m' rest' =>
        simp only [isplitGo, if_pos hskip]
        exact ih m.2 m' rest' (by simp at hfuel ⊢; omega)
    · have g5 := isplitAbsorb_length rest m
      by_cases hend : (isplitAbsorb m rest).1.1 = s.length
      · simp only [isplitGo, if_neg hskip, if_pos hend, List.length_cons,
          List.length_nil]
      · simp only [isplitGo, if_neg hskip, if_neg hend]
        cases hrest2 : (isplitAbsorb m rest).2 with
        | nil => simp
        | cons m' rest' =>
          rw [hrest2] at g5
          have := ih (isplitAbsorb m rest).1.2 m' rest' (by simp at g5 ⊢; omega)
          simp only [List.length_cons]
          omega

theorem fixParity_flatten (l : List Str) : (fixParity l).flatten = l.flatten := by
  induction l using List.reverseRecOn with
  | nil => rfl
  | append_singleton xs x _ =>
    by_cases hne : x ≠ []
    · simp [fixParity, List.getLast?_concat, hne]
    · push_neg at hne
      subst hne
      simp [fixParity, List.getLast?_concat]

theorem fixParity_length_even (l : List Str) (h : l.length % 2 = 1) :
    (fixParity l).length % 2 = 0 := by
  induction l using List.reverseRecOn with
  | nil => simp at h
  | append_singleton xs x _ =>
    simp only [List.length_append, List.length_cons, List.length_nil] at h
    by_cases hne : x ≠ []
    · simp only [fixParity, List.getLast?_concat, if_pos hne, List.length_append,
        List.length_cons, List.length_nil]
      omega
    · simp only [fixParity, List.getLast?_concat, if_neg hne,
        List.dropLast_concat, List.length_append, List.length_cons, List.length_nil]
      omega

theorem pairUp_flatten :
    ∀ (i : Nat) (l : List Str), l.length % 2 = 0 →
    ((pairUp i l).map tokStr).flatten = l.flatten := by
  intro i l
  induction i, l using pairUp.induct with
  | case1 _ => intro _; rfl
  | case2 i x => intro h; simp at h
  | case3 i w sep rest ih =>
    intro h
    simp only [pairUp, List.map_cons, List.flatten_cons, tokStr]
    rw [ih (by simp at h ⊢; omega)]
    simp

theorem isplit_length_odd (ms : List (Nat × Nat)) (s : Str) :
    (isplit ms s).length % 2 = 1 := by
  cases ms with
  | nil => rfl
  | cons m rest => exact isplitGo_length_odd s (rest.length + 1) 0 m rest (by omega)

theorem tokenize_reconstruct (ms : List (Nat × Nat)) (s : Str)
    (hv : validMatches s.length 0 ms = true) :
    concatTok (tokenize ms s) = s := by
  rw [concatTok, tokenize,
    pairUp_flatten 0 _ (fixParity_length_even _ (isplit_length_odd ms s)),
    fixParity_flatten, isplit_flatten ms s hv]

theorem isplitGo_pairsTruthy (s : Str) :
    ∀ (fuel : Nat) (prevEnd : Nat) (m : Nat × Nat) (rest : List (Nat × Nat)),
    rest.length < fuel →
    prevEnd ≤ m.1 → m.1 ≤ m.2 → m.2 ≤ s.length →
    validMatches s.length m.2 rest = true →
    pairsTruthy (isplitGo s fuel prevEnd m rest) := by
  intro fuel
  induction fuel with
  | zero => intro _ _ _ h; omega
  | succ fuel ih =>
    intro prevEnd m rest hfuel h1 h2 h3 hv
    by_cases hskip : m.1 = m.2 ∧ m.1 = prevEnd
    · cases rest with
      | nil => simp only [isplitGo, if_pos hskip]; trivial
      | cons m' rest' =>
        obtain ⟨hb1, hb2, hb3, hb4⟩ := validMatches_cons hv
        simp only [isplitGo, if_pos hskip]
        exact ih m.2 m' rest' (by simp at hfuel ⊢; omega) hb1 hb2 hb3 hb4
    · obtain ⟨g1, g2, g3, g4, g5, g6⟩ := isplitAbsorb_spec s.length rest m h2 h3 hv
      by_cases hend : (isplitAbsorb m rest).1.1 = s.length
      · simp only [isplitGo, if_neg hskip, if_pos hend]; trivial
      · simp only [isplitGo, if_neg hskip, if_neg hend]
        have hfirst : pySlice s prevEnd (isplitAbsorb m rest).1.1 ≠ [] ∨
            pySlice s (isplitAbsorb m rest).1.1 (isplitAbsorb m rest).1.2 ≠ [] := by
          by_cases hzw : (isplitAbsorb m rest).1.1 = (isplitAbsorb m rest).1.2
          · left
            obtain ⟨e1, e2⟩ := g6 hzw
            have hlt : prevEnd < (isplitAbsorb m rest).1.1 := by
              rcases Nat.lt_or_ge prevEnd m.1 with h | h
              · omega
              · exfalso; exact hskip ⟨e2, by omega⟩
            exact pySlice_ne_nil s _ _ hlt (by omega)
          · right
            exact pySlice_ne_nil s _ _ (by omega) (by omega)
        cases hrest2 : (isplitAbsorb m rest).2 with
        | nil => exact ⟨hfirst, trivial⟩
        | cons m' rest' =>
          rw [hrest2] at g4 g5
          obtain ⟨hb1, hb2, hb3, hb4⟩ := validMatches_cons g4
          exact ⟨hfirst, ih _ m' rest' (by simp at g5 ⊢; omega) hb1 hb2 hb3 hb4⟩

theorem isplit_pairsTruthy (ms : List (Nat × Nat)) (s : Str)
    (hv : validMatches s.length 0 ms = true) :
    pairsTruthy (isplit ms s) := by
  cases ms with
  | nil => trivial
  | cons m rest =>
    obtain ⟨hb1, hb2, hb3, hb4⟩ := validMatches_cons hv
    exact isplitGo_pairsTruthy s (rest.length + 1) 0 m rest (by omega)
      (Nat.zero_le _) hb2 hb3 hb4

theorem pairsTruthy_append_empty :
    ∀ (l : List Str), l.length % 2 = 1 → pairsTruthy l →
    (∀ x ∈ l.getLast?, x ≠ []) → pairsTruthy (l ++ [[]]) := by
  intro l
  induction l using pairsTruthy.induct with
  | case1 => intro h; simp at h
  | case2 x =>
    intro _ _ hx
    exact ⟨Or.inl (hx x rfl), True.intro⟩
  | case3 c sp rest ih =>
    intro hlen hp hx
    refine ⟨hp.1, ?_⟩
    cases hr : rest with
    | nil =>
      subst hr
      exact True.intro
    | cons y ys =>
      subst hr
      refine ih (by simp at hlen ⊢; omega) hp.2 ?_
      intro x hxl
      exact hx x (by
        rw [List.getLast?_cons_cons, List.getLast?_cons_cons]
        exact hxl)

theorem pairsTruthy_dropLast :
    ∀ (l : List Str), l.length % 2 = 1 → pairsTruthy l → pairsTruthy l.dropLast := by
  intro l
  induction l using pairsTruthy.induct with
  | case1 => intro h; simp at h
  | case2 x => intro _ _; trivial
  | case3 c sp rest ih =>
    intro hlen hp
    cases hr : rest with
    | nil =>
      subst hr
      simp at hlen
    | cons y ys =>
      subst hr
      rw [List.dropLast_cons₂, List.dropLast_cons₂]
      exact ⟨hp.1, ih (by simp at hlen ⊢; omega) hp.2⟩

theorem fixParity_pairsTruthy (l : List Str) (hlen : l.length % 2 = 1)
    (hp : pairsTruthy l) : pairsTruthy (fixParity l) := by
  match hl : l.getLast? with
  | none =>
    rw [List.getLast?_eq_none_iff] at hl
    subst hl
    trivial
  | some last =>
    by_cases hne : last ≠ []
    · simp only [fixParity, hl, if_pos hne]
      refine pairsTruthy_append_empty l hlen hp ?_
      intro x hx
      rw [hl] at hx
      simp at hx
      exact hx ▸ hne
    · simp only [fixParity, hl, if_neg hne]
      exact pairsTruthy_dropLast l hlen hp

theorem pairUp_truthy :
    ∀ (i : Nat) (l : List Str), pairsTruthy l →
    ∀ t ∈ pairUp i l, tokTruthy t = true := by
  intro i l
  induction i, l using pairUp.induct with
  | case1 _ => intro _ t ht; simp [pairUp] at ht
  | case2 i x => intro _ t ht; simp [pairUp] at ht
  | case3 i w sep rest ih =>
    intro hp t ht
    simp only [pairUp, List.mem_cons] at ht
    cases ht with
    | inl h =>
      subst h
      rcases hp.1 with h | h <;> simp [tokTruthy, List.isEmpty_iff, h]
    | inr h => exact ih hp.2 t h

theorem tokenize_allTruthy (ms : List (Nat × Nat)) (s : Str)
    (hv : validMatches s.length 0 ms = true) :
    allTruthy (tokenize ms s) := by
  intro t ht
  exact pairUp_truthy 0 _
    (fixParity_pairsTruthy _ (isplit_length_odd ms s) (isplit_pairsTruthy ms s hv))
    t ht

/-! ### Matcher invariants -/

theorem runLenF_le_fuel (a b : List Str) (ahi bhi : Nat) :
    ∀ (fuel i j : Nat), runLenF a b ahi bhi fuel i j ≤ fuel := by
  intro fuel
  induction fuel with
  | zero => intro i j; exact le_refl _
  | succ fuel ih =>
    intro i j
    by_cases h : i < ahi ∧ j < bhi ∧ a.getD i [] = b.getD j []
    · simp only [runLenF, if_pos h]
      exact Nat.succ_le_succ (ih (i + 1) (j + 1))
    · simp only [runLenF, if_neg h]
      omega

theorem runLenF_le_bhi (a b : List Str) (ahi bhi : Nat) :
    ∀ (fuel i j : Nat), runLenF a b ahi bhi fuel i j ≤ bhi - j := by
  intro fuel
  induction fuel with
  | zero => intro i j; simp [runLenF]
  | succ fuel ih =>
    intro i j
    by_cases h : i < ahi ∧ j < bhi ∧ a.getD i [] = b.getD j []
    · simp only [runLenF, if_pos h]
      have := ih (i + 1) (j + 1)
      omega
    · simp only [runLenF, if_neg h]
      omega

theorem runLen_le_ahi (a b : List Str) (ahi bhi i j : Nat) :
    runLen a b ahi bhi i j ≤ ahi - i :=
  runLenF_le_fuel a b ahi bhi (ahi - i) i j

theorem runLen_le_bhi (a b : List Str) (ahi bhi i j : Nat) :
    runLen a b ahi bhi i j ≤ bhi - j :=
  runLenF_le_bhi a b ahi bhi (ahi - i) i j

theorem foldl_pickBest_mem :
    ∀ (l : List MBT) (init : MBT),
    l.foldl pickBest init = init ∨ l.foldl pickBest init ∈ l := by
  intro l
  induction l with
  | nil => intro init; exact Or.inl rfl
  | cons c rest ih =>
    intro init
    simp only [List.foldl_cons]
    rcases ih (pickBest init c) with h | h
    · rw [h]
      unfold pickBest
      by_cases hlt : init.k < c.k
      · simp only [if_pos hlt]
        exact Or.inr (List.mem_cons_self _ _)
      · simp only [if_neg hlt]
        exact Or.inl (by trivial)
    · exact Or.inr (List.mem_cons_of_mem _ h)

theorem flm_bounds (a b : List Str) (alo ahi blo bhi : Nat)
    (hk : (flm a b alo ahi blo bhi).k ≠ 0) :
    alo ≤ (flm a b alo ahi blo bhi).i ∧
    (flm a b alo ahi blo bhi).i + (flm a b alo ahi blo bhi).k ≤ ahi ∧
    blo ≤ (flm a b alo ahi blo bhi).j ∧
    (flm a b alo ahi blo bhi).j + (flm a b alo ahi blo bhi).k ≤ bhi := by
  rcases foldl_pickBest_mem
      ((List.range' alo (ahi - alo)).flatMap fun i =>
        (List.range' blo (bhi - blo)).map fun j => MBT.mk i j (runLen a b ahi bhi i j))
      ⟨alo, blo, 0⟩ with h | h
  · exfalso
    apply hk
    rw [flm, h]
  · rw [flm]
    rw [List.mem_flatMap] at h
    obtain ⟨i, hi, hmem⟩ := h
    rw [List.mem_map] at hmem
    obtain ⟨j, hj, hmem⟩ := hmem
    rw [List.mem_range'_1] at hi hj
    rw [flm] at hk
    rw [← hmem] at hk ⊢
    have h1 := runLen_le_ahi a b ahi bhi i j
    have h2 := runLen_le_bhi a b ahi bhi i j
    simp only at hk ⊢
    omega

theorem sandwiched_mono :
    ∀ (l : List MBT) (ci cj ci' cj' a b : Nat),
    Sandwiched ci cj l a b → ci' ≤ ci → cj' ≤ cj → Sandwiched ci' cj' l a b := by
  intro l
  cases l with
  | nil =>
    intro ci cj ci' cj' a b h h1 h2
    exact ⟨le_trans h1 h.1, le_trans h2 h.2⟩
  | cons t rest =>
    intro ci cj ci' cj' a b h h1 h2
    exact ⟨le_trans h1 h.1, le_trans h2 h.2.1, h.2.2⟩

theorem sandwiched_le :
    ∀ (l : List MBT) (ci cj a b : Nat),
    Sandwiched ci cj l a b → ci ≤ a ∧ cj ≤ b := by
  intro l
  induction l with
  | nil => intro ci cj a b h; exact h
  | cons t rest ih =>
    intro ci cj a b h
    have hrest := ih (t.i + t.k) (t.j + t.k) a b h.2.2.2
    have h1 := h.1
    have h2 := h.2.1
    omega

theorem sandwiched_append :
    ∀ (l1 : List MBT) (l2 : List MBT) (ci cj m1 m2 a b : Nat),
    Sandwiched ci cj l1 m1 m2 → Sandwiched m1 m2 l2 a b →
    Sandwiched ci cj (l1 ++ l2) a b := by
  intro l1
  induction l1 with
  | nil =>
    intro l2 ci cj m1 m2 a b h1 h2
    exact sandwiched_mono l2 m1 m2 ci cj a b h2 h1.1 h1.2
  | cons t rest ih =>
    intro l2 ci cj m1 m2 a b h1 h2
    exact ⟨h1.1, h1.2.1, h1.2.2.1, ih l2 _ _ m1 m2 a b h1.2.2.2 h2⟩

theorem rawBlocksF_sandwiched (a b : List Str) :
    ∀ (fuel alo ahi blo bhi : Nat), alo ≤ ahi → blo ≤ bhi →
    Sandwiched alo blo (rawBlocksF a b fuel alo ahi blo bhi) ahi bhi := by
  intro fuel
  induction fuel with
  | zero => intro alo ahi blo bhi h1 h2; exact ⟨h1, h2⟩
  | succ fuel ih =>
    intro alo ahi blo bhi h1 h2
    by_cases hk : (flm a b alo ahi blo bhi).k = 0
    · simp only [rawBlocksF, if_pos hk]
      exact ⟨h1, h2⟩
    · simp only [rawBlocksF, if_neg hk]
      obtain ⟨g1, g2, g3, g4⟩ := flm_bounds a b alo ahi blo bhi hk
      refine sandwiched_append _ _ alo blo (flm a b alo ahi blo bhi).i
        (flm a b alo ahi blo bhi).j ahi bhi
        (ih alo (flm a b alo ahi blo bhi).i blo (flm a b alo ahi blo bhi).j g1 g3)
        ⟨le_refl _, le_refl _, by omega, ih _ ahi _ bhi (by omega) (by omega)⟩

theorem mergeAdj_sandwiched :
    ∀ (l : List MBT) (cur : MBT) (a b : Nat),
    Sandwiched (cur.i + cur.k) (cur.j + cur.k) l a b →
    Sandwiched cur.i cur.j (mergeAdj cur l) a b := by
  intro l
  induction l with
  | nil =>
    intro cur a b h
    by_cases hk : cur.k ≠ 0
    · simp only [mergeAdj, if_pos hk]
      exact ⟨le_refl _, le_refl _, by omega, h⟩
    · simp only [mergeAdj, if_neg hk]
      push_neg at hk
      constructor
      · have := h.1; omega
      · have := h.2; omega
  | cons t rest ih =>
    intro cur a b h
    obtain ⟨h1, h2, h3, h4⟩ := h
    by_cases hadj : cur.i + cur.k = t.i ∧ cur.j + cur.k = t.j
    · simp only [mergeAdj, if_pos hadj]
      apply ih ⟨cur.i, cur.j, cur.k + t.k⟩ a b
      simp only
      rw [show cur.i + (cur.k + t.k) = t.i + t.k by omega,
        show cur.j + (cur.k + t.k) = t.j + t.k by omega]
      exact h4
    · simp only [mergeAdj, if_neg hadj]
      have hrest := ih t a b h4
      by_cases hk : cur.k ≠ 0
      · simp only [if_pos hk, List.cons_append, List.nil_append]
        exact ⟨le_refl _, le_refl _, by omega,
          sandwiched_mono _ t.i t.j _ _ a b hrest h1 h2⟩
      · simp only [if_neg hk, List.nil_append]
        push_neg at hk
        exact sandwiched_mono _ t.i t.j _ _ a b hrest (by omega) (by omega)

theorem sandwiched_covers :
    ∀ (l : List MBT) (ci cj la lb : Nat),
    Sandwiched ci cj l la lb → Covers la lb ci cj (l ++ [⟨la, lb, 0⟩]) := by
  intro l
  induction l with
  | nil =>
    intro ci cj la lb h
    exact ⟨h.1, h.2, le_refl _, le_refl _, rfl, rfl⟩
  | cons t rest ih =>
    intro ci cj la lb h
    obtain ⟨h1, h2, h3, h4⟩ := h
    have hle := sandwiched_le rest (t.i + t.k) (t.j + t.k) la lb h4
    exact ⟨h1, h2, hle.1, hle.2, ih _ _ la lb h4⟩

theorem matchingBlocks_covers (a b : List Str) :
    Covers a.length b.length 0 0 (matchingBlocks a b) := by
  apply sandwiched_covers
  have := mergeAdj_sandwiched (rawBlocks a b) ⟨0, 0, 0⟩ a.length b.length
  apply this
  exact rawBlocksF_sandwiched a b a.length 0 a.length 0 b.length
    (Nat.zero_le _) (Nat.zero_le _)

/-! ### joinTok and segment concatenation -/

theorem segStr_empty (toks : List Token) (a b : Nat) (h : b ≤ a) :
    segStr toks a b = [] := by
  rw [segStr, show b - a = 0 by omega]
  simp

theorem segStr_single (toks : List Token) (a : Nat) (h : a < toks.length) :
    segStr toks a (a + 1) = tokStr (toks.getD a default) := by
  have h' : a < (toks.map tokStr).length := by simpa using h
  rw [segStr, show a + 1 - a = 1 by omega, List.map_take, List.map_drop,
    List.drop_eq_getElem_cons h']
  simp [List.getD, List.getElem?_eq_getElem h]

theorem segStr_append (toks : List Token) (a b c : Nat) (h1 : a ≤ b) (h2 : b ≤ c) :
    segStr toks a b ++ segStr toks b c = segStr toks a c := by
  have hdrop : toks.drop b = (toks.drop a).drop (b - a) := by
    rw [List.drop_drop]
    congr 1
    omega
  have htake : (toks.drop a).take (c - a)
      = (toks.drop a).take (b - a) ++ ((toks.drop a).drop (b - a)).take (c - b) := by
    rw [← List.take_add]
    congr 1
    omega
  simp only [segStr]
  rw [← List.flatten_append, ← List.map_append, hdrop, ← htake]

theorem optStr_joinTok (toks : List Token) (a b : Nat) (h1 : a ≤ b)
    (h2 : b ≤ toks.length) :
    optStr (joinTok toks a b) = segStr toks a b := by
  by_cases hle : b ≤ a
  · rw [joinTok]
    simp only [if_pos hle, optStr]
    exact (segStr_empty toks a b hle).symm
  · by_cases hone : b = a + 1
    · rw [joinTok]
      simp only [if_neg hle, if_pos hone, optStr]
      rw [hone, segStr_single toks a (by omega)]
    · have hstep : segStr toks a (b - 1) ++ segStr toks (b - 1) b = segStr toks a b :=
        segStr_append toks a (b - 1) b (by omega) (by omega)
      have hlast : segStr toks (b - 1) b = tokStr (toks.getD (b - 1) default) := by
        have hs := segStr_single toks (b - 1) (by omega)
        rw [show b - 1 + 1 = b by omega] at hs
        exact hs
      rw [joinTok]
      simp only [if_neg hle, if_neg hone, optStr, tokStr]
      rw [← hstep, hlast, tokStr, segStr]
      simp [List.append_assoc]

theorem joinTok_isSome (toks : List Token) (a b : Nat) (h : a < b) :
    (joinTok toks a b).isSome = true := by
  rw [joinTok]
  simp only [if_neg (by omega : ¬ b ≤ a)]
  by_cases hone : b = a + 1 <;> simp [hone]

theorem tokTruthy_false_tokStr (t : Token) (h : tokTruthy t = false) :
    tokStr t = [] := by
  simp only [tokTruthy, Bool.or_eq_false_iff, Bool.not_eq_false'] at h
  rw [tokStr, List.isEmpty_iff.mp h.1, List.isEmpty_iff.mp h.2]
  rfl

theorem optTruthy_false_optStr (x : Option Token) (h : optTruthy x = false) :
    optStr x = [] := by
  cases x with
  | none => rfl
  | some t => exact tokTruthy_false_tokStr t h

theorem pyOr_manufactured_str (x : Option Token) (z : Int) :
    tokStr (pyOr x ⟨[], [], z⟩) = optStr x := by
  cases x with
  | none => rfl
  | some t =>
    by_cases ht : tokTruthy t = true
    · simp [pyOr, ht, optStr]
    · simp only [Bool.not_eq_true] at ht
      have hts := tokTruthy_false_tokStr t ht
      simp only [pyOr, ht, optStr, hts, tokStr, if_neg (by simp : ¬ false = true)]
      simp only [tokTruthy, Bool.or_eq_false_iff, Bool.not_eq_false'] at ht
      simp [List.isEmpty_iff.mp ht.1, List.isEmpty_iff.mp ht.2]

/-! ### blocksGo: side coverage and symmetry -/

theorem lhsConcat_append (l1 l2 : List Delta) :
    lhsConcat (l1 ++ l2) = lhsConcat l1 ++ lhsConcat l2 := by
  simp [lhsConcat]

theorem rhsConcat_eq_lhsConcat_swap (ds : List Delta) :
    rhsConcat ds = lhsConcat (ds.map swapDelta) := by
  induction ds with
  | nil => rfl
  | cons d rest ih =>
    simp only [rhsConcat, lhsConcat, List.map_cons, List.flatten_cons] at ih ⊢
    rw [ih]
    rfl

theorem blocksGo_lhsConcat (atoks btoks : List Token) :
    ∀ (mbs : List MBT) (curi curj : Nat),
    Covers atoks.length btoks.length curi curj mbs →
    lhsConcat (blocksGo atoks btoks curi curj mbs) = segStr atoks curi atoks.length := by
  intro mbs
  induction mbs with
  | nil =>
    intro curi curj hc
    rw [blocksGo, hc.1]
    exact (segStr_empty atoks _ _ (le_refl _)).symm
  | cons t rest ih =>
    intro curi curj hc
    obtain ⟨h1, h2, h3, h4, hrest⟩ := hc
    rw [blocksGo]
    rw [lhsConcat_append, lhsConcat_append, ih (t.i + t.k) (t.j + t.k) hrest]
    have hpre : lhsConcat
        (match classify (joinTok atoks curi t.i) (joinTok btoks curj t.j) with
         | some op => [⟨op, pyOr (joinTok atoks curi t.i) ⟨[], [], (t.i : Int) - 1⟩,
                            pyOr (joinTok btoks curj t.j) ⟨[], [], (t.j : Int) - 1⟩⟩]
         | none => []) = segStr atoks curi t.i := by
      rw [← optStr_joinTok atoks curi t.i h1 (by omega)]
      rcases hcl : classify (joinTok atoks curi t.i) (joinTok btoks curj t.j)
        with _ | op
      · simp only [lhsConcat, List.map_nil, List.flatten_nil]
        rw [classify] at hcl
        by_cases hl : optTruthy (joinTok atoks curi t.i) = true
        · by_cases hr : optTruthy (joinTok btoks curj t.j) = true
          · simp [hl, hr] at hcl
          · simp [hl, hr] at hcl
        · simp only [Bool.not_eq_true] at hl
          exact (optTruthy_false_optStr _ hl).symm
      · simp only [lhsConcat, List.map_cons, List.map_nil, List.flatten_cons,
          List.flatten_nil, List.append_nil]
        exact pyOr_manufactured_str _ _
    have hcom : lhsConcat
        (if t.k > 0 then
          [⟨Op.c, (joinTok atoks t.i (t.i + t.k)).getD default,
                  (joinTok btoks t.j (t.j + t.k)).getD default⟩]
         else []) = segStr atoks t.i (t.i + t.k) := by
      by_cases hk : t.k > 0
      · simp only [if_pos hk, lhsConcat, List.map_cons, List.map_nil,
          List.flatten_cons, List.flatten_nil, List.append_nil]
        rcases hj : joinTok atoks t.i (t.i + t.k) with _ | u
        · have := joinTok_isSome atoks t.i (t.i + t.k) (by omega)
          rw [hj] at this
          simp at this
        · have := optStr_joinTok atoks t.i (t.i + t.k) (by omega) h3
          rw [hj] at this
          simpa using this
      · simp only [if_neg hk, lhsConcat, List.map_nil, List.flatten_nil]
        exact (segStr_empty atoks _ _ (by omega)).symm
    rw [hpre, hcom, List.append_assoc,
      segStr_append atoks t.i (t.i + t.k) atoks.length (by omega) h3,
      segStr_append atoks curi t.i atoks.length h1 (le_trans (by omega) h3)]

theorem classify_swap (x y : Option Token) :
    classify y x = (classify x y).map
      (fun op => match op with | Op.l => Op.r | Op.r => Op.l | o => o) := by
  rw [classify, classify]
  by_cases hx : optTruthy x = true <;> by_cases hy : optTruthy y = true <;>
    simp [hx, hy]

theorem blocksGo_swap (atoks btoks : List Token) :
    ∀ (mbs : List MBT) (curi curj : Nat),
    (blocksGo atoks btoks curi curj mbs).map swapDelta =
      blocksGo btoks atoks curj curi (mbs.map mirrorMBT) := by
  intro mbs
  induction mbs with
  | nil => intro curi curj; rfl
  | cons t rest ih =>
    intro curi curj
    simp only [List.map_cons, blocksGo, mirrorMBT, List.map_append]
    rw [← ih (t.i + t.k) (t.j + t.k)]
    congr 1
    congr 1
    · rw [classify_swap (joinTok atoks curi t.i) (joinTok btoks curj t.j)]
      rcases classify (joinTok atoks curi t.i) (joinTok btoks curj t.j) with _ | op
      · rfl
      · cases op <;> rfl
    · by_cases hk : t.k > 0 <;> simp [hk, swapDelta]

theorem segStr_full (toks : List Token) : segStr toks 0 toks.length = concatTok toks := by
  rw [segStr, concatTok, List.drop_zero, Nat.sub_zero, List.take_length]

theorem covers_mirror (la lb : Nat) :
    ∀ (mbs : List MBT) (curi curj : Nat),
    Covers la lb curi curj mbs → Covers lb la curj curi (mbs.map mirrorMBT) := by
  intro mbs
  induction mbs with
  | nil => intro curi curj h; exact ⟨h.2, h.1⟩
  | cons t rest ih =>
    intro curi curj h
    exact ⟨h.2.1, h.1, h.2.2.2.1, h.2.2.1, ih _ _ h.2.2.2.2⟩

theorem tokenKeys_length (ign : Bool) (toks : List Token) :
    (tokenKeys ign toks).length = toks.length := by
  simp [tokenKeys]

theorem differBlocks_covers (ign : Bool) (atoks btoks : List Token) :
    Covers atoks.length btoks.length 0 0
      (matchingBlocks (tokenKeys ign atoks) (tokenKeys ign btoks)) := by
  have := matchingBlocks_covers (tokenKeys ign atoks) (tokenKeys ign btoks)
  rwa [tokenKeys_length, tokenKeys_length] at this

theorem differBlocks_lhsConcat (ign : Bool) (atoks btoks : List Token) :
    lhsConcat (differBlocks ign atoks btoks) = concatTok atoks := by
  rw [differBlocks,
    blocksGo_lhsConcat atoks btoks _ 0 0 (differBlocks_covers ign atoks btoks),
    segStr_full]

theorem differBlocks_rhsConcat (ign : Bool) (atoks btoks : List Token) :
    rhsConcat (differBlocks ign atoks btoks) = concatTok btoks := by
  rw [rhsConcat_eq_lhsConcat_swap, differBlocks, blocksGo_swap,
    blocksGo_lhsConcat btoks atoks _ 0 0
      (covers_mirror atoks.length btoks.length _ 0 0 (differBlocks_covers ign atoks btoks)),
    segStr_full]

/-! ### Alternation of the block stream -/

theorem mergeAdj_head :
    ∀ (l : List MBT) (cur : MBT), 1 ≤ cur.k →
    ∃ kk, cur.k ≤ kk ∧ (mergeAdj cur l).head? = some ⟨cur.i, cur.j, kk⟩ := by
  intro l
  induction l with
  | nil =>
    intro cur hk
    refine ⟨cur.k, le_refl _, ?_⟩
    simp only [mergeAdj, if_pos (by omega : cur.k ≠ 0)]
    rfl
  | cons t rest ih =>
    intro cur hk
    by_cases hadj : cur.i + cur.k = t.i ∧ cur.j + cur.k = t.j
    · simp only [mergeAdj, if_pos hadj]
      obtain ⟨kk, hkk, hh⟩ := ih ⟨cur.i, cur.j, cur.k + t.k⟩ (by simp; omega)
      exact ⟨kk, by simp at hkk; omega, hh⟩
    · simp only [mergeAdj, if_neg hadj, if_pos (by omega : cur.k ≠ 0),
        List.cons_append, List.nil_append]
      exact ⟨cur.k, le_refl _, rfl⟩

theorem mergeAdj_chain :
    ∀ (l : List MBT) (cur : MBT) (a b : Nat),
    Sandwiched (cur.i + cur.k) (cur.j + cur.k) l a b →
    List.Chain' nonAdjacent (mergeAdj cur l) := by
  intro l
  induction l with
  | nil =>
    intro cur a b _
    by_cases hk : cur.k ≠ 0 <;> simp [mergeAdj, hk]
  | cons t rest ih =>
    intro cur a b h
    obtain ⟨h1, h2, h3, h4⟩ := h
    by_cases hadj : cur.i + cur.k = t.i ∧ cur.j + cur.k = t.j
    · simp only [mergeAdj, if_pos hadj]
      apply ih ⟨cur.i, cur.j, cur.k + t.k⟩ a b
      simp only
      rw [show cur.i + (cur.k + t.k) = t.i + t.k by omega,
        show cur.j + (cur.k + t.k) = t.j + t.k by omega]
      exact h4
    · simp only [mergeAdj, if_neg hadj]
      have hrest := ih t a b h4
      by_cases hk : cur.k ≠ 0
      · simp only [if_pos hk, List.cons_append, List.nil_append]
        rw [List.chain'_cons']
        refine ⟨?_, hrest⟩
        intro y hy
        obtain ⟨kk, _, hh⟩ := mergeAdj_head rest t h3
        rw [hh] at hy
        cases hy
        intro hcon
        exact hadj ⟨hcon.1, hcon.2⟩
      · simp only [if_neg hk, List.nil_append]
        exact hrest

theorem joinTok_truthy (toks : List Token) (hA : allTruthy toks) (a b : Nat)
    (h1 : a < b) (h2 : b ≤ toks.length) :
    optTruthy (joinTok toks a b) = true := by
  have hget : ∀ (c : Nat), c < toks.length → toks.getD c default ∈ toks := by
    intro c hc
    have : toks.getD c default = toks[c] := by
      simp [List.getD, List.getElem?_eq_getElem hc]
    rw [this]
    exact List.getElem_mem hc
  by_cases hone : b = a + 1
  · rw [joinTok]
    simp only [if_neg (by omega : ¬ b ≤ a), if_pos hone, optTruthy]
    exact hA _ (hget a (by omega))
  · rw [joinTok]
    simp only [if_neg (by omega : ¬ b ≤ a), if_neg hone, optTruthy]
    have hlast := hA _ (hget (b - 1) (by omega))
    rw [tokTruthy] at hlast ⊢
    simp only [Bool.or_eq_true, Bool.not_eq_true'] at hlast ⊢
    rcases hlast with hw | hs
    · left
      rcases hcc : (((toks.drop a).take (b - 1 - a)).map tokStr).flatten
          ++ (toks.getD (b - 1) default).word with _ | ⟨c, l⟩
      · have hwnil : (toks.getD (b - 1) default).word = [] := by
          rcases List.append_eq_nil.mp hcc with ⟨_, h⟩
          exact h
        rw [hwnil] at hw
        simp at hw
      · rfl
    · right
      exact hs

theorem classify_ne_c (x y : Option Token) (op : Op) (h : classify x y = some op) :
    op ≠ Op.c := by
  rw [classify] at h
  by_cases hx : optTruthy x = true <;> by_cases hy : optTruthy y = true <;>
    simp [hx, hy] at h <;> simp [← h]

theorem classify_some_of_gap (atoks btoks : List Token)
    (hA : allTruthy atoks) (hB : allTruthy btoks)
    (curi curj i2 j2 : Nat)
    (hi : curi ≤ i2) (hj : curj ≤ j2) (hne : ¬(curi = i2 ∧ curj = j2))
    (hia : i2 ≤ atoks.length) (hjb : j2 ≤ btoks.length) :
    ∃ op, classify (joinTok atoks curi i2) (joinTok btoks curj j2) = some op := by
  rw [classify]
  by_cases hx : optTruthy (joinTok atoks curi i2) = true
  · by_cases hy : optTruthy (joinTok btoks curj j2) = true
    · exact ⟨Op.d, by simp [hx, hy]⟩
    · exact ⟨Op.l, by simp [hx, hy]⟩
  · by_cases hy : optTruthy (joinTok btoks curj j2) = true
    · exact ⟨Op.r, by simp [hx, hy]⟩
    · exfalso
      rcases Nat.lt_or_ge curi i2 with hlt | hge
      · exact hx (joinTok_truthy atoks hA curi i2 hlt hia)
      · rcases Nat.lt_or_ge curj j2 with hlt' | hge'
        · exact hy (joinTok_truthy btoks hB curj j2 hlt' hjb)
        · exact hne ⟨by omega, by omega⟩

theorem blocksGo_head_not_common (atoks btoks : List Token)
    (hA : allTruthy atoks) (hB : allTruthy btoks) :
    ∀ (merged : List MBT) (curi curj : Nat),
    Sandwiched curi curj merged atoks.length btoks.length →
    (∀ t2 rest2, merged = t2 :: rest2 → ¬(curi = t2.i ∧ curj = t2.j)) →
    ∀ d, (blocksGo atoks btoks curi curj
      (merged ++ [⟨atoks.length, btoks.length, 0⟩])).head? = some d → d.op ≠ Op.c := by
  intro merged curi curj hs hne d hd
  cases merged with
  | nil =>
    rw [List.nil_append, blocksGo] at hd
    rcases hcl : classify (joinTok atoks curi atoks.length)
        (joinTok btoks curj btoks.length) with _ | op
    · rw [hcl] at hd
      simp [blocksGo] at hd
    · rw [hcl] at hd
      simp only [List.cons_append, List.nil_append, gt_iff_lt, Nat.lt_irrefl,
        if_false, blocksGo, List.append_nil, List.head?_cons] at hd
      cases hd
      exact classify_ne_c _ _ op hcl
  | cons t2 rest2 =>
    obtain ⟨h1, h2, h3, h4⟩ := hs
    have hle := sandwiched_le rest2 (t2.i + t2.k) (t2.j + t2.k) _ _ h4
    obtain ⟨op, hcl⟩ := classify_some_of_gap atoks btoks hA hB curi curj t2.i t2.j
      h1 h2 (hne t2 rest2 rfl) (by omega) (by omega)
    rw [List.cons_append, blocksGo, hcl] at hd
    simp only [List.cons_append, List.nil_append, List.head?_cons] at hd
    cases hd
    exact classify_ne_c _ _ op hcl

theorem blocksGo_alternating (atoks btoks : List Token)
    (hA : allTruthy atoks) (hB : allTruthy btoks) :
    ∀ (merged : List MBT) (curi curj : Nat),
    Sandwiched curi curj merged atoks.length btoks.length →
    List.Chain' nonAdjacent merged →
    Alternating (blocksGo atoks btoks curi curj
      (merged ++ [⟨atoks.length, btoks.length, 0⟩])) := by
  intro merged
  induction merged with
  | nil =>
    intro curi curj _ _
    rw [List.nil_append, blocksGo]
    rcases hcl : classify (joinTok atoks curi atoks.length)
        (joinTok btoks curj btoks.length) with _ | op <;>
      simp [blocksGo, Alternating]
  | cons t merged' ih =>
    intro curi curj hs hchain
    obtain ⟨h1, h2, h3, h4⟩ := hs
    have hrec := ih (t.i + t.k) (t.j + t.k) h4 (List.Chain'.tail hchain)
    have hhead : ∀ d, (blocksGo atoks btoks (t.i + t.k) (t.j + t.k)
        (merged' ++ [⟨atoks.length, btoks.length, 0⟩])).head? = some d →
        d.op ≠ Op.c := by
      apply blocksGo_head_not_common atoks btoks hA hB merged' (t.i + t.k) (t.j + t.k) h4
      intro t2 rest2 hm
      subst hm
      have hsplit := List.chain'_cons'.mp hchain
      have hna := hsplit.1 t2 (by simp)
      exact hna
    rw [List.cons_append, blocksGo]
    simp only [if_pos (by omega : t.k > 0)]
    have hcons : ∀ (C : Delta), C.op = Op.c → Alternating (C :: blocksGo atoks btoks
        (t.i + t.k) (t.j + t.k) (merged' ++ [⟨atoks.length, btoks.length, 0⟩])) := by
      intro C hC
      cases hr : blocksGo atoks btoks (t.i + t.k) (t.j + t.k)
          (merged' ++ [⟨atoks.length, btoks.length, 0⟩]) with
      | nil => trivial
      | cons d rest =>
        constructor
        · have hd : d.op ≠ Op.c := hhead d (by rw [hr]; rfl)
          simp [hC, hd]
        · exact hr ▸ hrec
    rcases hcl : classify (joinTok atoks curi t.i) (joinTok btoks curj t.j) with _ | op
    · simpa using hcons _ rfl
    · have hop : op ≠ Op.c := classify_ne_c _ _ op hcl
      simp only [List.cons_append, List.nil_append]
      refine ⟨?_, hcons _ rfl⟩
      simp [hop]

theorem differBlocks_alternating (ign : Bool) (atoks btoks : List Token)
    (hA : allTruthy atoks) (hB : allTruthy btoks) :
    Alternating (differBlocks ign atoks btoks) := by
  rw [differBlocks, matchingBlocks, tokenKeys_length, tokenKeys_length]
  have hraw : Sandwiched 0 0
      (rawBlocks (tokenKeys ign atoks) (tokenKeys ign btoks))
      atoks.length btoks.length := by
    have h0 : Sandwiched 0 0
        (rawBlocks (tokenKeys ign atoks) (tokenKeys ign btoks))
        (tokenKeys ign atoks).length (tokenKeys ign btoks).length :=
      rawBlocksF_sandwiched (tokenKeys ign atoks) (tokenKeys ign btoks)
        (tokenKeys ign atoks).length 0 (tokenKeys ign atoks).length 0
        (tokenKeys ign btoks).length (Nat.zero_le _) (Nat.zero_le _)
    rwa [tokenKeys_length, tokenKeys_length] at h0
  exact blocksGo_alternating atoks btoks hA hB _ 0 0
    (mergeAdj_sandwiched _ ⟨0, 0, 0⟩ _ _ hraw)
    (mergeAdj_chain _ ⟨0, 0, 0⟩ atoks.length btoks.length hraw)

/-! ### The matcher on two equal sequences -/

theorem runLenF_self (xs : List Str) (n : Nat) :
    ∀ (fuel i : Nat), i + fuel = n → runLenF xs xs n n fuel i i = fuel := by
  intro fuel
  induction fuel with
  | zero => intro i _; rfl
  | succ fuel ih =>
    intro i hi
    have hin : i < n := by omega
    simp only [runLenF]
    rw [ih (i + 1) (by omega)]
    simp [hin]

theorem runLen_self (xs : List Str) (n i : Nat) (h : i ≤ n) :
    runLen xs xs n n i i = n - i := by
  rw [runLen]
  exact runLenF_self xs n (n - i) i (by omega)

theorem foldl_pickBest_const :
    ∀ (l : List MBT) (b : MBT), (∀ c ∈ l, c.k ≤ b.k) → l.foldl pickBest b = b := by
  intro l
  induction l with
  | nil => intro b _; rfl
  | cons c rest ih =>
    intro b h
    simp only [List.foldl_cons]
    have hc : c.k ≤ b.k := h c (List.mem_cons_self _ _)
    rw [show pickBest b c = b by rw [pickBest]; simp; omega]
    exact ih b fun x hx => h x (List.mem_cons_of_mem _ hx)

theorem flm_self (xs : List Str) (n : Nat) (hn : 1 ≤ n) (hlen : xs.length = n) :
    flm xs xs 0 n 0 n = ⟨0, 0, n⟩ := by
  have hsplit : List.range' 0 (n - 0) = 0 :: List.range' 1 (n - 1) := by
    rw [Nat.sub_zero, show n = (n - 1) + 1 by omega, List.range'_succ]
    simp
  rw [flm, hsplit, List.flatMap_cons, List.map_cons, runLen_self xs n 0 (by omega),
    Nat.sub_zero, List.cons_append, List.foldl_cons]
  rw [show pickBest ⟨0, 0, 0⟩ ⟨0, 0, n⟩ = ⟨0, 0, n⟩ by rw [pickBest]; simp; omega]
  apply foldl_pickBest_const
  intro c hc
  rcases List.mem_append.mp hc with hmem | hmem
  · rw [List.mem_map] at hmem
    obtain ⟨j, _, hj⟩ := hmem
    rw [← hj]
    show runLen xs xs n n 0 j ≤ n
    have := runLen_le_ahi xs xs n n 0 j
    omega
  · rw [List.mem_flatMap] at hmem
    obtain ⟨i, _, hmem⟩ := hmem
    rw [List.mem_map] at hmem
    obtain ⟨j, _, hj⟩ := hmem
    rw [← hj]
    show runLen xs xs n n i j ≤ n
    have := runLen_le_ahi xs xs n n i j
    omega

theorem rawBlocksF_degenerate (xs ys : List Str) :
    ∀ (fuel alo ahi blo bhi : Nat), ahi ≤ alo →
    rawBlocksF xs ys fuel alo ahi blo bhi = [] := by
  intro fuel alo ahi blo bhi h
  cases fuel with
  | zero => rfl
  | succ fuel =>
    have hflm : flm xs ys alo ahi blo bhi = ⟨alo, blo, 0⟩ := by
      rw [flm, show ahi - alo = 0 by omega]
      simp
    simp [rawBlocksF, hflm]

theorem rawBlocks_self (xs : List Str) (n : Nat) (hn : 1 ≤ n) (hlen : xs.length = n) :
    rawBlocks xs xs = [⟨0, 0, n⟩] := by
  rw [rawBlocks, hlen]
  rw [show n = (n - 1) + 1 by omega]
  rw [rawBlocksF]
  rw [show (n - 1) + 1 = n by omega, flm_self xs n hn hlen]
  simp only [if_neg (by omega : ¬ n = 0)]
  rw [rawBlocksF_degenerate xs xs (n - 1) 0 0 0 0 (le_refl _)]
  rw [rawBlocksF_degenerate xs xs (n - 1) (0 + n) n (0 + n) n (by omega)]
  rfl

theorem matchingBlocks_self (xs : List Str) (n : Nat) (hn : 1 ≤ n)
    (hlen : xs.length = n) :
    matchingBlocks xs xs = [⟨0, 0, n⟩, ⟨n, n, 0⟩] := by
  rw [matchingBlocks, rawBlocks_self xs n hn hlen, hlen]
  have hmerge : mergeAdj ⟨0, 0, 0⟩ [⟨0, 0, n⟩] = [⟨0, 0, n⟩] := by
    rw [mergeAdj]
    rw [if_pos (show (0 : Nat) + 0 = MBT.i ⟨0, 0, n⟩ ∧ (0 : Nat) + 0 = MBT.j ⟨0, 0, n⟩
      from ⟨rfl, rfl⟩)]
    rw [mergeAdj]
    rw [if_pos (show MBT.k ⟨0, 0, 0 + n⟩ ≠ 0 by simp; omega)]
    simp
  rw [hmerge]
  rfl

theorem classify_none_none : classify none none = none := by
  rw [classify]
  simp [optTruthy]

theorem differBlocks_self (ign : Bool) (toks : List Token) (hne : toks ≠ []) :
    ∃ J, differBlocks ign toks toks = [⟨Op.c, J, J⟩] ∧ tokStr J = concatTok toks := by
  have hn : 1 ≤ toks.length := List.length_pos.mpr hne
  have hkeys : (tokenKeys ign toks).length = toks.length := tokenKeys_length ign toks
  obtain ⟨J, hJ⟩ : ∃ J, joinTok toks 0 toks.length = some J := by
    have := joinTok_isSome toks 0 toks.length (by omega)
    cases hj : joinTok toks 0 toks.length with
    | none => rw [hj] at this; simp at this
    | some u => exact ⟨u, rfl⟩
  refine ⟨J, ?_, ?_⟩
  · rw [differBlocks, matchingBlocks_self (tokenKeys ign toks) toks.length
      (by omega) hkeys]
    have hj0 : joinTok toks 0 0 = none := by rw [joinTok]; simp
    have hjn : joinTok toks toks.length toks.length = none := by rw [joinTok]; simp
    simp only [blocksGo, Nat.zero_add, hj0, hjn, classify_none_none]
    simp [hJ, show (0 : Nat) < toks.length by omega]
  · have := optStr_joinTok toks 0 toks.length (by omega) (le_refl _)
    rw [hJ, segStr_full] at this
    exact this

theorem differBlocks_nil (ign : Bool) : differBlocks ign [] [] = [] := by
  rfl

/-! ### Renderers on a self-diff -/

theorem normalDiff_single_common (J K : Token) : normalDiff [⟨Op.c, J, K⟩] = [] := by
  rfl

theorem contextBlocks_single_common (ctx : Nat) (J K : Token) :
    contextBlocks ctx [⟨Op.c, J, K⟩] = [] := by
  rfl

theorem reduceBlocks_single_common (rev : Bool) (J : Token) :
    reduceBlocks rev [⟨Op.c, J, J⟩] = (tokStr J, tokStr J) := by
  cases rev <;> simp [reduceBlocks]

theorem selfDiff_renderers_empty (ign : Bool) (ctx : Nat) (s : Str) :
    normalDiff (differBlocks ign (tokenizeNL s) (tokenizeNL s)) = [] ∧
    contextDiff ctx (differBlocks ign (tokenizeNL s) (tokenizeNL s)) = [] ∧
    unifiedDiff ctx (differBlocks ign (tokenizeNL s) (tokenizeNL s)) = [] := by
  by_cases hne : tokenizeNL s = []
  · rw [hne, differBlocks_nil]
    exact ⟨rfl, rfl, rfl⟩
  · obtain ⟨J, hblocks, _⟩ := differBlocks_self ign (tokenizeNL s) hne
    rw [hblocks]
    refine ⟨normalDiff_single_common J J, ?_, ?_⟩
    · rw [contextDiff, contextBlocks_single_common]
      rfl
    · rw [unifiedDiff, contextBlocks_single_common]
      rfl

/-! ### Context hunk assembly -/

theorem trimDelta_small (ctx : Nat) (m : Delta) (dir : TrimDir) (inner : Bool)
    (h : countlines (tokStr m.lhs) ≤ (if inner then ctx * 2 else ctx)) :
    trimDelta ctx m dir inner = (m, false) := by
  simp only [trimDelta]
  rw [if_pos h]

theorem innerLoop_merge (ctx : Nat) (acc : List Delta) (d1 m d2 : Delta)
    (rest : List Delta) (hm : countlines (tokStr m.lhs) ≤ ctx * 2) :
    innerLoop ctx acc (d1 :: m :: d2 :: rest) =
      innerLoop ctx (acc ++ [d1, m]) (d2 :: rest) := by
  have htrim : trimDelta ctx m TrimDir.head (!(d2 :: rest).isEmpty) = (m, false) := by
    rw [show (!(d2 :: rest).isEmpty) = true by rfl]
    exact trimDelta_small ctx m TrimDir.head true (by simpa using hm)
  conv_lhs => rw [innerLoop]
  rw [htrim]
  simp

theorem innerLoop_break (ctx : Nat) (acc : List Delta) (d1 m d2 : Delta)
    (rest : List Delta) (hm : (trimDelta ctx m TrimDir.head true).2 = true) :
    innerLoop ctx acc (d1 :: m :: d2 :: rest) =
      (acc ++ [d1, (trimDelta ctx m TrimDir.head true).1], some m, d2 :: rest) := by
  conv_lhs => rw [innerLoop]
  rw [show (!(d2 :: rest).isEmpty) = true by rfl]
  rcases hp : trimDelta ctx m TrimDir.head true with ⟨m', flag⟩
  rw [hp] at hm
  simp only at hm
  subst hm
  simp

theorem innerLoop_starts (ctx : Nat) :
    ∀ (n : Nat) (s : List Delta), s.length ≤ n → ∀ (acc : List Delta) (d : Delta),
    ∃ t, (innerLoop ctx acc (d :: s)).1 = acc ++ d :: t := by
  intro n
  induction n with
  | zero =>
    intro s hs acc d
    have hnil : s = [] := List.eq_nil_of_length_eq_zero (Nat.le_zero.mp hs)
    subst hnil
    exact ⟨[], rfl⟩
  | succ n ih =>
    intro s hs acc d
    match s with
    | [] => exact ⟨[], rfl⟩
    | [m] =>
      rcases hp : trimDelta ctx m TrimDir.head (!([] : List Delta).isEmpty)
        with ⟨m', flag⟩
      cases flag
      · refine ⟨[m'], ?_⟩
        simp only [innerLoop, hp]
        simp [innerLoop]
      · refine ⟨[m'], ?_⟩
        simp only [innerLoop, hp]
        simp
    | m :: d2 :: s3 =>
      rcases hp : trimDelta ctx m TrimDir.head (!(d2 :: s3).isEmpty) with ⟨m', flag⟩
      cases flag
      · obtain ⟨t', ht'⟩ := ih s3 (by simp at hs ⊢; omega) (acc ++ [d, m']) d2
        refine ⟨m' :: d2 :: t', ?_⟩
        simp only [innerLoop, hp]
        simp [ht']
      · refine ⟨[m'], ?_⟩
        simp only [innerLoop, hp]
        simp

theorem outerF_some_cons (ctx fuel : Nat) (b : Delta) (d : Delta) (s : List Delta) :
    outerF ctx (fuel + 1) (some b) (d :: s) =
      (innerLoop ctx [(trimDelta ctx b TrimDir.tail false).1] (d :: s)).1 ::
        outerF ctx fuel
          (innerLoop ctx [(trimDelta ctx b TrimDir.tail false).1] (d :: s)).2.1
          (innerLoop ctx [(trimDelta ctx b TrimDir.tail false).1] (d :: s)).2.2 := by
  rfl

/-! ### Line counts of trimmed common blocks -/

theorem splitlines_nlfree :
    ∀ (n : Nat) (s : Str), s.length ≤ n → ∀ p ∈ splitlines s, '\n' ∉ p := by
  intro n
  induction n with
  | zero =>
    intro s hs p hp
    have : s = [] := List.eq_nil_of_length_eq_zero (Nat.le_zero.mp hs)
    subst this
    simp [splitlines] at hp
  | succ n ih =>
    intro s hs p hp
    match s with
    | [] => simp [splitlines] at hp
    | c :: rest =>
      by_cases hc : c = '\n'
      · rw [splitlines, if_pos hc] at hp
        rcases List.mem_cons.mp hp with h | h
        · subst h; simp
        · exact ih rest (by simp at hs; omega) p h
      · rw [splitlines, if_neg hc] at hp
        cases hm : splitlines rest with
        | nil =>
          rw [hm] at hp
          rcases List.mem_cons.mp hp with h | h
          · subst h
            simp only [List.mem_singleton]
            intro hcon
            exact hc hcon.symm
          · simp at h
        | cons l ls =>
          rw [hm] at hp
          rcases List.mem_cons.mp hp with h | h
          · subst h
            intro hcon
            rcases List.mem_cons.mp hcon with h | h
            · exact hc h.symm
            · exact ih rest (by simp at hs; omega) l
                (by rw [hm]; exact List.mem_cons_self _ _) h
          · exact ih rest (by simp at hs; omega) p
              (by rw [hm]; exact List.mem_cons_of_mem _ h)

theorem splitlines_length_ge_count :
    ∀ (n : Nat) (s : Str), s.length ≤ n → s.count '\n' ≤ (splitlines s).length := by
  intro n
  induction n with
  | zero =>
    intro s hs
    have : s = [] := List.eq_nil_of_length_eq_zero (Nat.le_zero.mp hs)
    subst this
    simp
  | succ n ih =>
    intro s hs
    match s with
    | [] => simp
    | c :: rest =>
      have hrest := ih rest (by simp at hs; omega)
      by_cases hc : c = '\n'
      · rw [splitlines, if_pos hc, List.count_cons]
        simp only [List.length_cons]
        have hb : (c == '\n') = true := by simp [hc]
        rw [hb, if_pos rfl]
        omega
      · have hbeq : (c == '\n') = false := by simp [hc]
        rw [splitlines, if_neg hc, List.count_cons, hbeq,
          if_neg (by simp : ¬ (false = true))]
        cases hm : splitlines rest with
        | nil =>
          rw [hm] at hrest
          simp only [List.length_nil] at hrest
          simp only [List.length_cons, List.length_nil]
          omega
        | cons l ls =>
          rw [hm] at hrest
          simp only [List.length_cons] at hrest ⊢
          omega

theorem countlines_append_nl (x : Str) :
    countlines (x ++ ['\n']) = x.count '\n' + 1 := by
  rw [countlines]
  rw [if_neg (by simp)]
  rw [List.count_append]
  simp

theorem count_intercalate_nl :
    ∀ (ps : List Str), ps ≠ [] → (∀ p ∈ ps, '\n' ∉ p) →
    (List.intercalate ['\n'] ps).count '\n' = ps.length - 1 := by
  intro ps
  induction ps with
  | nil => intro h; exact absurd rfl h
  | cons p rest ih =>
    intro _ hfree
    cases rest with
    | nil =>
      have : List.intercalate ['\n'] [p] = p := by simp [List.intercalate]
      rw [this]
      simp only [List.length_cons, List.length_nil]
      rw [List.count_eq_zero.mpr (hfree p (List.mem_cons_self _ _))]
    | cons q qs =>
      have hstep : List.intercalate ['\n'] (p :: q :: qs)
          = p ++ ['\n'] ++ List.intercalate ['\n'] (q :: qs) := by
        simp [List.intercalate, List.intersperse_cons_cons]
      rw [hstep, List.count_append, List.count_append,
        List.count_eq_zero.mpr (hfree p (List.mem_cons_self _ _)),
        ih (by simp) (fun x hx => hfree x (List.mem_cons_of_mem _ hx))]
      simp
      omega

theorem trimDelta_head_spec (ctx : Nat) (m : Delta) (hctx : 1 ≤ ctx)
    (hsep : m.lhs.sep = ['\n'])
    (hlines : ctx * 2 < countlines (tokStr m.lhs)) :
    (trimDelta ctx m TrimDir.head true).2 = true ∧
    (trimDelta ctx m TrimDir.head true).1.op = Op.c ∧
    (trimDelta ctx m TrimDir.head true).1.lhs.word
      = List.intercalate ['\n'] ((splitlines m.lhs.word).take ctx) ∧
    countlines (tokStr (trimDelta ctx m TrimDir.head true).1.lhs) = ctx := by
  have hcnt : countlines (tokStr m.lhs) = m.lhs.word.count '\n' + 1 := by
    rw [tokStr, hsep]
    exact countlines_append_nl m.lhs.word
  have hlen : ctx ≤ (splitlines m.lhs.word).length := by
    have := splitlines_length_ge_count m.lhs.word.length m.lhs.word (le_refl _)
    omega
  have htake : ((splitlines m.lhs.word).take ctx).length = ctx := by
    rw [List.length_take]
    omega
  have hne : (splitlines m.lhs.word).take ctx ≠ [] := by
    intro hcon
    rw [hcon] at htake
    simp at htake
    omega
  have hfree : ∀ p ∈ (splitlines m.lhs.word).take ctx, '\n' ∉ p := by
    intro p hp
    exact splitlines_nlfree m.lhs.word.length m.lhs.word (le_refl _) p
      (List.mem_of_mem_take hp)
  have hcond : ¬ countlines (tokStr m.lhs) ≤ ctx * 2 := by omega
  constructor
  · simp only [trimDelta]
    rw [if_pos trivial, if_neg hcond]
  constructor
  · simp only [trimDelta]
    rw [if_pos trivial, if_neg hcond]
  constructor
  · simp only [trimDelta]
    rw [if_pos trivial, if_neg hcond]
  · simp only [trimDelta]
    rw [if_pos trivial, if_neg hcond]
    show countlines
      (List.intercalate ['\n'] ((splitlines m.lhs.word).take ctx) ++ m.lhs.sep) = ctx
    rw [hsep, countlines_append_nl, count_intercalate_nl _ hne hfree, htake]
    omega

theorem trimDelta_tail_spec (ctx : Nat) (m : Delta) (hctx : 1 ≤ ctx)
    (hsep : m.lhs.sep = ['\n'])
    (hlines : ctx * 2 < countlines (tokStr m.lhs)) :
    (trimDelta ctx m TrimDir.tail false).2 = true ∧
    (trimDelta ctx m TrimDir.tail false).1.op = Op.c ∧
    (trimDelta ctx m TrimDir.tail false).1.lhs.word
      = List.intercalate ['\n'] (pyTakeLast ctx (splitlines m.lhs.word)) ∧
    countlines (tokStr (trimDelta ctx m TrimDir.tail false).1.lhs) = ctx := by
  have hcnt : countlines (tokStr m.lhs) = m.lhs.word.count '\n' + 1 := by
    rw [tokStr, hsep]
    exact countlines_append_nl m.lhs.word
  have hlen : ctx ≤ (splitlines m.lhs.word).length := by
    have := splitlines_length_ge_count m.lhs.word.length m.lhs.word (le_refl _)
    omega
  have hdrop : pyTakeLast ctx (splitlines m.lhs.word)
      = (splitlines m.lhs.word).drop ((splitlines m.lhs.word).length - ctx) := by
    rw [pyTakeLast, if_neg (by omega : ¬ ctx = 0)]
  have htake : (pyTakeLast ctx (splitlines m.lhs.word)).length = ctx := by
    rw [hdrop, List.length_drop]
    omega
  have hne : pyTakeLast ctx (splitlines m.lhs.word) ≠ [] := by
    intro hcon
    rw [hcon] at htake
    simp at htake
    omega
  have hfree : ∀ p ∈ pyTakeLast ctx (splitlines m.lhs.word), '\n' ∉ p := by
    intro p hp
    rw [hdrop] at hp
    exact splitlines_nlfree m.lhs.word.length m.lhs.word (le_refl _) p
      (List.mem_of_mem_drop hp)
  have hcond : ¬ countlines (tokStr m.lhs) ≤ ctx := by omega
  constructor
  · simp only [trimDelta]
    rw [if_neg (by simp : ¬ (false = true)), if_neg hcond]
  constructor
  · simp only [trimDelta]
    rw [if_neg (by simp : ¬ (false = true)), if_neg hcond]
  constructor
  · simp only [trimDelta]
    rw [if_neg (by simp : ¬ (false = true)), if_neg hcond]
  · simp only [trimDelta]
    rw [if_neg (by simp : ¬ (false = true)), if_neg hcond]
    show countlines
      (List.intercalate ['\n'] (pyTakeLast ctx (splitlines m.lhs.word)) ++ m.lhs.sep) = ctx
    rw [hsep, countlines_append_nl, count_intercalate_nl _ hne hfree, htake]
    omega

/-! ### Line structure of prefaced text (Normal renderer line analysis) -/

theorem splitlines_cons_ne_nil (c : Char) (rest : Str) : splitlines (c :: rest) ≠ [] := by
  rw [splitlines]
  by_cases hc : c = '\n'
  · rw [if_pos hc]
    simp
  · rw [if_neg hc]
    rcases splitlines rest with _ | ⟨l, ls⟩ <;> simp

theorem splitlines_ne_nil_of_ne (s : Str) (hs : s ≠ []) : splitlines s ≠ [] := by
  cases s with
  | nil => exact absurd rfl hs
  | cons c rest => exact splitlines_cons_ne_nil c rest

theorem splitlines_prepend_nlfree (x s : Str) (hx : '\n' ∉ x) :
    splitlines (x ++ '\n' :: s) = x :: splitlines s := by
  induction x with
  | nil => rw [List.nil_append, splitlines, if_pos rfl]
  | cons c x' ih =>
    have hc : ¬ c = '\n' := fun h => hx (h ▸ List.mem_cons_self c x')
    have hx' : '\n' ∉ x' := fun h => hx (List.mem_cons_of_mem c h)
    rw [List.cons_append, splitlines, if_neg hc, ih hx']

theorem splitlines_break (x y : Str) :
    splitlines (x ++ '\n' :: y) = splitlines (x ++ ['\n']) ++ splitlines y := by
  induction x with
  | nil =>
    rw [List.nil_append, List.nil_append, splitlines, if_pos rfl]
    rfl
  | cons c x' ih =>
    by_cases hc : c = '\n'
    · subst hc
      rw [List.cons_append, List.cons_append, splitlines, if_pos rfl, ih,
        splitlines, if_pos rfl, List.cons_append]
    · rcases hne : splitlines (x' ++ ['\n']) with _ | ⟨h, t⟩
      · exact absurd hne (splitlines_ne_nil_of_ne _ (by simp))
      · rw [List.cons_append, splitlines, if_neg hc, ih, hne, List.cons_append,
          List.cons_append, splitlines, if_neg hc, hne]
        rfl

theorem insertPre_nlfree (p w : Str) (hw : '\n' ∉ w) : insertPre p w = w := by
  induction w with
  | nil => rfl
  | cons c w' ih =>
    have hc : ¬ c = '\n' := fun h => hw (h ▸ List.mem_cons_self c w')
    rw [insertPre, if_neg hc, ih (fun h => hw (List.mem_cons_of_mem c h))]

theorem insertPre_split (p u v : Str) (hu : '\n' ∉ u) :
    insertPre p (u ++ '\n' :: v) = u ++ '\n' :: (p ++ insertPre p v) := by
  induction u with
  | nil => rw [List.nil_append, insertPre, if_pos rfl, List.nil_append]
  | cons c u' ih =>
    have hc : ¬ c = '\n' := fun h => hu (h ▸ List.mem_cons_self c u')
    rw [List.cons_append, insertPre, if_neg hc, ih (fun h => hu (List.mem_cons_of_mem c h)),
      List.cons_append]

theorem nl_split (w : Str) :
    '\n' ∉ w ∨ ∃ u v, w = u ++ '\n' :: v ∧ '\n' ∉ u := by
  induction w with
  | nil => exact Or.inl (by simp)
  | cons c w' ih =>
    by_cases hc : c = '\n'
    · exact Or.inr ⟨[], w', by rw [hc, List.nil_append], by simp⟩
    · rcases ih with hfree | ⟨u, v, hw, hu⟩
      · refine Or.inl ?_
        intro hmem
        rcases List.mem_cons.mp hmem with h | h
        · exact hc h.symm
        · exact hfree h
      · refine Or.inr ⟨c :: u, v, by rw [hw, List.cons_append], ?_⟩
        intro hmem
        rcases List.mem_cons.mp hmem with h | h
        · exact hc h.symm
        · exact hu h

theorem nlfree_getLast (x : Str) (hx : '\n' ∉ x) : x.getLast? ≠ some '\n' := by
  intro hcon
  rcases x.eq_nil_or_concat with rfl | ⟨ys, a, rfl⟩
  · simp at hcon
  · rw [List.concat_eq_append] at hcon hx
    rw [List.getLast?_concat] at hcon
    have ha := Option.some.inj hcon
    subst ha
    exact hx (by simp)

theorem insertPre_getLast (p : Str) (hp : '\n' ∉ p) (hpne : p ≠ []) :
    ∀ (n : Nat) (w : Str), w.length ≤ n →
    (p ++ insertPre p w).getLast? ≠ some '\n' := by
  intro n
  induction n with
  | zero =>
    intro w hw
    have : w = [] := List.eq_nil_of_length_eq_zero (Nat.le_zero.mp hw)
    subst this
    rw [show insertPre p [] = [] from rfl, List.append_nil]
    exact nlfree_getLast p hp
  | succ n ih =>
    intro w hw
    rcases nl_split w with hfree | ⟨u, v, hweq, hu⟩
    · rw [insertPre_nlfree p w hfree]
      cases hwe : w with
      | nil =>
        rw [List.append_nil]
        exact nlfree_getLast p hp
      | cons c w' =>
        rw [List.getLast?_append_of_ne_nil _ (by simp)]
        rw [← hwe]
        exact nlfree_getLast w hfree
    · subst hweq
      rw [insertPre_split p u v hu]
      have hz : p ++ insertPre p v ≠ [] := by
        intro hcon
        exact hpne (List.append_eq_nil.mp hcon).1
      rw [show p ++ (u ++ '\n' :: (p ++ insertPre p v))
            = (p ++ u ++ ['\n']) ++ (p ++ insertPre p v) by simp]
      rw [List.getLast?_append_of_ne_nil _ hz]
      have hv : v.length ≤ n := by
        have := hw
        simp only [List.length_append, List.length_cons] at this
        omega
      exact ih v hv

theorem prefaceCore_lines (p : Str) (hp : '\n' ∉ p) :
    ∀ (n : Nat) (w : Str), w.length ≤ n →
    ∀ l ∈ splitlines ((p ++ insertPre p w) ++ ['\n']), p.isPrefixOf l = true := by
  intro n
  induction n with
  | zero =>
    intro w hw l hl
    have : w = [] := List.eq_nil_of_length_eq_zero (Nat.le_zero.mp hw)
    subst this
    rw [show insertPre p [] = [] from rfl, List.append_nil,
      show p ++ ['\n'] = p ++ '\n' :: [] from rfl,
      splitlines_prepend_nlfree p [] hp] at hl
    rcases List.mem_cons.mp hl with h | h
    · subst h
      rw [List.isPrefixOf_iff_prefix]
    · simp [splitlines] at h
  | succ n ih =>
    intro w hw l hl
    rcases nl_split w with hfree | ⟨u, v, hweq, hu⟩
    · rw [insertPre_nlfree p w hfree] at hl
      have hfree2 : '\n' ∉ p ++ w := by
        intro hcon
        rcases List.mem_append.mp hcon with h | h
        · exact hp h
        · exact hfree h
      rw [show (p ++ w) ++ ['\n'] = (p ++ w) ++ '\n' :: [] from rfl,
        splitlines_prepend_nlfree _ [] hfree2] at hl
      rcases List.mem_cons.mp hl with h | h
      · subst h
        rw [List.isPrefixOf_iff_prefix]
        exact List.prefix_append p w
      · simp [splitlines] at h
    · subst hweq
      rw [insertPre_split p u v hu] at hl
      have hfree2 : '\n' ∉ p ++ u := by
        intro hcon
        rcases List.mem_append.mp hcon with h | h
        · exact hp h
        · exact hu h
      rw [show (p ++ (u ++ '\n' :: (p ++ insertPre p v))) ++ ['\n']
            = (p ++ u) ++ '\n' :: ((p ++ insertPre p v) ++ ['\n']) by simp,
        splitlines_prepend_nlfree _ _ hfree2] at hl
      rcases List.mem_cons.mp hl with h | h
      · subst h
        rw [List.isPrefixOf_iff_prefix]
        exact List.prefix_append p u
      · have hv : v.length ≤ n := by
          have := hw
          simp only [List.length_append, List.length_cons] at this
          omega
        exact ih v hv l h

theorem preface_lines (p : Str) (t : Token) (hp : '\n' ∉ p) (hpne : p ≠ [])
    (hsep : sepNormal t) :
    ∀ l ∈ splitlines (preface p t), p.isPrefixOf l = true ∨ l = noNlMarker := by
  intro l hl
  rw [preface] at hl
  rcases hsep with hs | hs
  · rw [hs] at hl
    rw [addnl, if_pos (List.getLast?_concat _)] at hl
    exact Or.inl (prefaceCore_lines p hp t.word.length t.word (le_refl _) l hl)
  · rw [hs, List.append_nil] at hl
    rw [addnl,
      if_neg (insertPre_getLast p hp hpne t.word.length t.word (le_refl _))] at hl
    rw [show ('\n' :: "\\ No newline at end of file\n".toList)
          = '\n' :: (noNlMarker ++ ['\n']) by rfl] at hl
    rw [splitlines_break] at hl
    rcases List.mem_append.mp hl with h | h
    · exact Or.inl (prefaceCore_lines p hp t.word.length t.word (le_refl _) l h)
    · rw [show noNlMarker ++ ['\n'] = noNlMarker ++ '\n' :: [] from rfl,
        splitlines_prepend_nlfree _ [] (by decide)] at h
      rcases List.mem_cons.mp h with h2 | h2
      · exact Or.inr h2
      · simp [splitlines] at h2

/-! ### Decimal rendering and the Normal hunk header line -/

theorem digitChar_mem (n : Nat) : digitChar n ∈ digitsList := by
  unfold digitChar
  split <;> decide

theorem digit_facts (c : Char) (h : c ∈ digitsList) :
    c ≠ '\n' ∧ c ≠ '<' ∧ c ≠ '>' ∧ c ≠ '-' := by
  have h2 : c ∈ ['0','1','2','3','4','5','6','7','8','9'] := by
    rw [show (['0','1','2','3','4','5','6','7','8','9'] : Str) = digitsList from rfl]
    exact h
  fin_cases h2 <;> exact ⟨by decide, by decide, by decide, by decide⟩

theorem natToStrF_mem (fuel : Nat) : ∀ (n : Nat), ∀ c ∈ natToStrF fuel n, c ∈ digitsList := by
  induction fuel with
  | zero => intro n c hc; simp [natToStrF] at hc
  | succ fuel ih =>
    intro n c hc
    rw [natToStrF] at hc
    by_cases hn : n < 10
    · rw [if_pos hn] at hc
      rcases List.mem_cons.mp hc with h | h
      · exact h ▸ digitChar_mem n
      · simp at h
    · rw [if_neg hn] at hc
      rcases List.mem_append.mp hc with h | h
      · exact ih (n / 10) c h
      · rcases List.mem_cons.mp h with h2 | h2
        · exact h2 ▸ digitChar_mem (n % 10)
        · simp at h2

theorem natToStrF_head (fuel n : Nat) (hf : 0 < fuel) :
    ∃ c cs, natToStrF fuel n = c :: cs ∧ c ∈ digitsList := by
  cases fuel with
  | zero => omega
  | succ fuel =>
    rw [natToStrF]
    by_cases hn : n < 10
    · rw [if_pos hn]
      exact ⟨digitChar n, [], rfl, digitChar_mem n⟩
    · rw [if_neg hn]
      rcases hrec : natToStrF fuel (n / 10) with _ | ⟨c, cs⟩
      · exact ⟨digitChar (n % 10), [], rfl, digitChar_mem (n % 10)⟩
      · refine ⟨c, cs ++ [digitChar (n % 10)], rfl, ?_⟩
        exact natToStrF_mem fuel (n / 10) c (by rw [hrec]; exact List.mem_cons_self _ _)

theorem intToStr_mem (z : Int) : ∀ c ∈ intToStr z, c ∈ digitsList ∨ c = '-' := by
  intro c hc
  rw [intToStr] at hc
  by_cases hz : z < 0
  · rw [if_pos hz] at hc
    rcases List.mem_cons.mp hc with h | h
    · exact Or.inr h
    · exact Or.inl (natToStrF_mem _ _ c h)
  · rw [if_neg hz] at hc
    exact Or.inl (natToStrF_mem _ _ c hc)

theorem intToStr_head (z : Int) :
    ∃ c cs, intToStr z = c :: cs ∧
      (c ∈ digitsList ∨ (c = '-' ∧ ∃ d ds, cs = d :: ds ∧ d ∈ digitsList)) := by
  rw [intToStr]
  by_cases hz : z < 0
  · rw [if_pos hz]
    obtain ⟨d, ds, hds, hd⟩ := natToStrF_head (z.natAbs + 1) z.natAbs (by omega)
    exact ⟨'-', natToStr z.natAbs, rfl, Or.inr ⟨rfl, d, ds, hds, hd⟩⟩
  · rw [if_neg hz]
    obtain ⟨c, cs, hcs, hc⟩ := natToStrF_head (z.toNat + 1) z.toNat (by omega)
    exact ⟨c, cs, hcs, Or.inl hc⟩

theorem normalLinerange_mem (t : Token) :
    ∀ c ∈ normalLinerange t, c ∈ digitsList ∨ c = '-' ∨ c = ',' := by
  intro c hc
  rw [normalLinerange] at hc
  rcases List.mem_append.mp hc with h | h
  · rcases intToStr_mem _ c h with h2 | h2
    · exact Or.inl h2
    · exact Or.inr (Or.inl h2)
  · by_cases hcount : countlines t.word > 1
    · rw [if_pos hcount] at h
      rcases List.mem_cons.mp h with h2 | h2
      · exact Or.inr (Or.inr h2)
      · rcases intToStr_mem _ c h2 with h3 | h3
        · exact Or.inl h3
        · exact Or.inr (Or.inl h3)
    · rw [if_neg hcount] at h
      simp at h

theorem normalLinerange_head (t : Token) :
    ∃ c cs, normalLinerange t = c :: cs ∧
      (c ∈ digitsList ∨ (c = '-' ∧ ∃ d ds, cs = d :: ds ∧ d ∈ digitsList)) := by
  rw [normalLinerange]
  obtain ⟨c, cs, hcs, hc⟩ := intToStr_head (t.idx + 1)
  rw [hcs]
  refine ⟨c, cs ++ _, rfl, ?_⟩
  rcases hc with h | ⟨hdash, d, ds, hds, hd⟩
  · exact Or.inl h
  · exact Or.inr ⟨hdash, d, ds ++ _, by rw [hds]; rfl, hd⟩

theorem headerLine_nlfree (t1 t2 : Token) (opc : Char) (hopc : opc ≠ '\n') :
    '\n' ∉ (normalLinerange t1 ++ opc :: normalLinerange t2) := by
  intro hcon
  rcases List.mem_append.mp hcon with h | h
  · rcases normalLinerange_mem t1 '\n' h with h2 | h2 | h2
    · exact (digit_facts _ h2).1 rfl
    · exact absurd h2.symm (by decide)
    · exact absurd h2.symm (by decide)
  · rcases List.mem_cons.mp h with h2 | h2
    · exact hopc h2.symm
    · rcases normalLinerange_mem t2 '\n' h2 with h3 | h3 | h3
      · exact (digit_facts _ h3).1 rfl
      · exact absurd h3.symm (by decide)
      · exact absurd h3.symm (by decide)

theorem headerLine_facts (t1 t2 : Token) (opc : Char) :
    ¬ (['<', ' '] <+: (normalLinerange t1 ++ opc :: normalLinerange t2)) ∧
    ¬ (['>', ' '] <+: (normalLinerange t1 ++ opc :: normalLinerange t2)) ∧
    (normalLinerange t1 ++ opc :: normalLinerange t2) ≠ ['-', '-', '-'] := by
  obtain ⟨c, cs, hcs, hc⟩ := normalLinerange_head t1
  rw [hcs, List.cons_append]
  rcases hc with hdig | ⟨hdash, d, ds, hds, hd⟩
  · obtain ⟨-, hlt, hgt, hdash⟩ := digit_facts c hdig
    refine ⟨?_, ?_, ?_⟩
    · intro hcon
      exact hlt ((List.cons_prefix_cons.mp hcon).1).symm
    · intro hcon
      exact hgt ((List.cons_prefix_cons.mp hcon).1).symm
    · intro hcon
      exact hdash (List.cons_eq_cons.mp hcon).1
  · subst hdash
    subst hds
    obtain ⟨-, -, -, hd4⟩ := digit_facts d hd
    refine ⟨?_, ?_, ?_⟩
    · intro hcon
      exact absurd ((List.cons_prefix_cons.mp hcon).1) (by decide)
    · intro hcon
      exact absurd ((List.cons_prefix_cons.mp hcon).1) (by decide)
    · intro hcon
      have h2 := (List.cons_eq_cons.mp hcon).2
      rw [List.cons_append] at h2
      exact hd4 (List.cons_eq_cons.mp h2).1

theorem splitlines_header (t1 t2 : Token) (opc : Char) (hopc : opc ≠ '\n') (rest : Str) :
    splitlines (normalLinerange t1 ++ opc :: (normalLinerange t2 ++ '\n' :: rest)) =
      (normalLinerange t1 ++ opc :: normalLinerange t2) :: splitlines rest := by
  rw [show normalLinerange t1 ++ opc :: (normalLinerange t2 ++ '\n' :: rest)
        = (normalLinerange t1 ++ opc :: normalLinerange t2) ++ '\n' :: rest by simp]
  exact splitlines_prepend_nlfree _ rest (headerLine_nlfree t1 t2 opc hopc)

theorem splitlines_normalHunk (b : Delta) :
    splitlines (normalHunk b) =
      (normalLinerange b.lhs ++
          (match b.op with | Op.l => 'd' | Op.r => 'a' | _ => 'c')
            :: normalLinerange b.rhs)
        :: splitlines
          ((if tokTruthy b.lhs then
              preface "< ".toList b.lhs ++ (if tokTruthy b.rhs then "---\n".toList else [])
            else []) ++
           (if tokTruthy b.rhs then preface "> ".toList b.rhs else [])) := by
  rw [normalHunk]
  generalize hB1 : (if tokTruthy b.lhs then
      preface "< ".toList b.lhs ++ (if tokTruthy b.rhs then "---\n".toList else [])
    else []) = B1
  generalize hB2 : (if tokTruthy b.rhs then preface "> ".toList b.rhs else []) = B2
  generalize hopc : (match b.op with | Op.l => 'd' | Op.r => 'a' | _ => 'c') = opc
  have hopcne : opc ≠ '\n' := by
    subst hopc
    cases b.op <;> decide
  rw [show (normalLinerange b.lhs ++ [opc] ++ normalLinerange b.rhs ++ ['\n']) ++ B1 ++ B2
        = normalLinerange b.lhs ++ opc :: (normalLinerange b.rhs ++ '\n' :: (B1 ++ B2))
      by simp]
  exact splitlines_header b.lhs b.rhs opc hopcne (B1 ++ B2)

theorem normalHunk_lhs_absent (b : Delta) (hr : sepNormal b.rhs)
    (h : tokTruthy b.lhs = false) :
    ∀ l ∈ splitlines (normalHunk b), ¬ (['<', ' '] <+: l) ∧ l ≠ ['-', '-', '-'] := by
  intro l hl
  rw [splitlines_normalHunk, h] at hl
  rw [if_neg (by simp : ¬ (false = true)), List.nil_append] at hl
  rcases List.mem_cons.mp hl with h1 | h1
  · subst h1
    exact ⟨(headerLine_facts b.lhs b.rhs _).1, (headerLine_facts b.lhs b.rhs _).2.2⟩
  · by_cases hrt : tokTruthy b.rhs = true
    · rw [hrt, if_pos rfl] at h1
      rcases preface_lines "> ".toList b.rhs (by decide) (by decide) hr l h1 with h2 | h2
      · obtain ⟨tl, htl⟩ := List.isPrefixOf_iff_prefix.mp h2
        subst htl
        rw [show ("> ".toList : Str) = ['>', ' '] from rfl, List.cons_append,
          List.cons_append]
        constructor
        · intro hcon
          exact absurd (List.cons_prefix_cons.mp hcon).1 (by decide)
        · intro hcon
          exact absurd (List.cons_eq_cons.mp hcon).1 (by decide)
      · subst h2
        exact ⟨by decide, by decide⟩
    · rw [Bool.not_eq_true] at hrt
      rw [hrt, if_neg (by simp : ¬ (false = true))] at h1
      simp [splitlines] at h1

theorem normalHunk_rhs_absent (b : Delta) (hlsep : sepNormal b.lhs)
    (h : tokTruthy b.rhs = false) :
    ∀ l ∈ splitlines (normalHunk b), ¬ (['>', ' '] <+: l) ∧ l ≠ ['-', '-', '-'] := by
  intro l hl
  rw [splitlines_normalHunk, h] at hl
  simp only [Bool.false_eq_true, if_false, List.append_nil] at hl
  by_cases hlt : tokTruthy b.lhs = true
  · rw [hlt, if_pos rfl] at hl
    rcases List.mem_cons.mp hl with h1 | h1
    · subst h1
      exact ⟨(headerLine_facts b.lhs b.rhs _).2.1, (headerLine_facts b.lhs b.rhs _).2.2⟩
    · rcases preface_lines "< ".toList b.lhs (by decide) (by decide) hlsep l h1 with h2 | h2
      · obtain ⟨tl, htl⟩ := List.isPrefixOf_iff_prefix.mp h2
        subst htl
        rw [show ("< ".toList : Str) = ['<', ' '] from rfl, List.cons_append,
          List.cons_append]
        constructor
        · intro hcon
          exact absurd (List.cons_prefix_cons.mp hcon).1 (by decide)
        · intro hcon
          exact absurd (List.cons_eq_cons.mp hcon).1 (by decide)
      · subst h2
        exact ⟨by decide, by decide⟩
  · rw [Bool.not_eq_true] at hlt
    rw [hlt, if_neg (by simp : ¬ (false = true))] at hl
    rcases List.mem_cons.mp hl with h1 | h1
    · subst h1
      exact ⟨(headerLine_facts b.lhs b.rhs _).2.1, (headerLine_facts b.lhs b.rhs _).2.2⟩
    · simp [splitlines] at h1

/-! ### Manufactured tokens of one-sided deltas are falsy -/

theorem pyOr_falsy (x : Option Token) (fb : Token) (h : optTruthy x = false) :
    pyOr x fb = fb := by
  cases x with
  | none => rfl
  | some t =>
    rw [optTruthy] at h
    rw [pyOr, if_neg (by simp [h])]

theorem classify_l_falsy (x y : Option Token) (h : classify x y = some Op.l) :
    optTruthy y = false := by
  cases hy : optTruthy y
  · rfl
  · exfalso
    cases hx : optTruthy x <;> simp [classify, hx, hy] at h

theorem classify_r_falsy (x y : Option Token) (h : classify x y = some Op.r) :
    optTruthy x = false := by
  cases hx : optTruthy x
  · rfl
  · exfalso
    cases hy : optTruthy y <;> simp [classify, hx, hy] at h

theorem blocksGo_side_falsy (atoks btoks : List Token) :
    ∀ (mbs : List MBT) (curi curj : Nat), ∀ d ∈ blocksGo atoks btoks curi curj mbs,
      (d.op = Op.l → tokTruthy d.rhs = false) ∧
      (d.op = Op.r → tokTruthy d.lhs = false) := by
  intro mbs
  induction mbs with
  | nil =>
    intro curi curj d hd
    simp [blocksGo] at hd
  | cons t rest ih =>
    intro curi curj d hd
    rw [blocksGo] at hd
    rcases List.mem_append.mp hd with h12 | h3
    · rcases List.mem_append.mp h12 with h1 | h2
      · rcases hcl : classify (joinTok atoks curi t.i) (joinTok btoks curj t.j)
          with _ | op
        · rw [hcl] at h1
          simp at h1
        · rw [hcl] at h1
          simp only [List.mem_singleton] at h1
          subst h1
          constructor
          · intro hop
            have hop2 : op = Op.l := hop
            subst hop2
            show tokTruthy (pyOr (joinTok btoks curj t.j) ⟨[], [], (t.j : Int) - 1⟩) = false
            rw [pyOr_falsy _ _ (classify_l_falsy _ _ hcl)]
            rfl
          · intro hop
            have hop2 : op = Op.r := hop
            subst hop2
            show tokTruthy (pyOr (joinTok atoks curi t.i) ⟨[], [], (t.i : Int) - 1⟩) = false
            rw [pyOr_falsy _ _ (classify_r_falsy _ _ hcl)]
            rfl
      · by_cases hk : t.k > 0
        · rw [if_pos hk] at h2
          simp only [List.mem_singleton] at h2
          subst h2
          exact ⟨(fun hop => nomatch hop), (fun hop => nomatch hop)⟩
        · rw [if_neg hk] at h2
          simp at h2
    · exact ih (t.i + t.k) (t.j + t.k) d h3

theorem differBlocks_side_falsy (ign : Bool) (atoks btoks : List Token) :
    ∀ d ∈ differBlocks ign atoks btoks,
      (d.op = Op.l → tokTruthy d.rhs = false) ∧
      (d.op = Op.r → tokTruthy d.lhs = false) := by
  intro d hd
  rw [differBlocks] at hd
  exact blocksGo_side_falsy atoks btoks _ 0 0 d hd

/-! ## The claims -/

/-- C1: for every input string and every boundary pattern (abstracted by a
valid finditer span list, including zero-width matches), concatenating
`word ++ sep` over all tokens of the tokenizer in index order yields exactly
the original input string. -/
theorem claim_C1 (ms : List (Nat × Nat)) (s : Str)
    (hv : validMatches s.length 0 ms = true) :
    concatTok (tokenize ms s) = s :=
  tokenize_reconstruct ms s hv

/-- Witness for C1 on `"ab cd"` with a span list holding zero-width matches. -/
theorem claim_C1_witness :
    validMatches ("ab cd".toList).length 0 [(0, 0), (2, 2), (2, 3), (5, 5)] = true ∧
    concatTok (tokenize [(0, 0), (2, 2), (2, 3), (5, 5)] "ab cd".toList)
      = "ab cd".toList :=
  ⟨by decide, claim_C1 _ _ (by decide)⟩

/-- C2: for every pair of inputs and every boundary/case configuration,
concatenating the lhs tokens of all blocks of `Differ.blocks()` yields the left
input, and concatenating the rhs tokens yields the right input. -/
theorem claim_C2 (ign : Bool) (msa msb : List (Nat × Nat)) (a b : Str)
    (ha : validMatches a.length 0 msa = true)
    (hb : validMatches b.length 0 msb = true) :
    lhsConcat (differBlocks ign (tokenize msa a) (tokenize msb b)) = a ∧
    rhsConcat (differBlocks ign (tokenize msa a) (tokenize msb b)) = b := by
  constructor
  · rw [differBlocks_lhsConcat, tokenize_reconstruct msa a ha]
  · rw [differBlocks_rhsConcat, tokenize_reconstruct msb b hb]

/-- Witness for C2 on the whitespace tokenizations of `"x y"` and `"y x"`. -/
theorem claim_C2_witness :
    validMatches ("x y".toList).length 0 (wsMatches "x y".toList) = true ∧
    validMatches ("y x".toList).length 0 (wsMatches "y x".toList) = true ∧
    (lhsConcat (differBlocks false (tokenize (wsMatches "x y".toList) "x y".toList)
        (tokenize (wsMatches "y x".toList) "y x".toList)) = "x y".toList ∧
     rhsConcat (differBlocks false (tokenize (wsMatches "x y".toList) "x y".toList)
        (tokenize (wsMatches "y x".toList) "y x".toList)) = "y x".toList) :=
  ⟨by decide, by decide, claim_C2 false _ _ _ _ (by decide) (by decide)⟩

/-- C3 (amended): diffing a string with a nonempty tokenization against itself
yields a single common block covering the whole input, and the rendered
Normal/Context/Unified output is empty; the word-style renderer, however,
emits the input text itself, not the empty string (and an empty input yields
zero blocks, not one). -/
theorem claim_C3 (ign : Bool) (ctx : Nat) (s : Str)
    (hnl : tokenizeNL s ≠ []) (hws : tokenizeWS s ≠ []) :
    (∃ J, differBlocks ign (tokenizeNL s) (tokenizeNL s) = [⟨Op.c, J, J⟩] ∧
        tokStr J = concatTok (tokenizeNL s)) ∧
    normalDiff (differBlocks ign (tokenizeNL s) (tokenizeNL s)) = [] ∧
    contextDiff ctx (differBlocks ign (tokenizeNL s) (tokenizeNL s)) = [] ∧
    unifiedDiff ctx (differBlocks ign (tokenizeNL s) (tokenizeNL s)) = [] ∧
    wordDiff "[-".toList "-]".toList "\x7b+".toList "+\x7d".toList
      (differBlocks ign (tokenizeWS s) (tokenizeWS s)) = concatTok (tokenizeWS s) := by
  obtain ⟨J, hJ, hstr⟩ := differBlocks_self ign (tokenizeNL s) hnl
  obtain ⟨K, hK, hKstr⟩ := differBlocks_self ign (tokenizeWS s) hws
  refine ⟨⟨J, hJ, hstr⟩, ?_, ?_, ?_, ?_⟩
  · rw [hJ]
    exact normalDiff_single_common J J
  · rw [hJ, contextDiff, contextBlocks_single_common]
    rfl
  · rw [hJ, unifiedDiff, contextBlocks_single_common]
    rfl
  · rw [hK, wordDiff]
    simp only [List.map_cons, List.map_nil, List.flatten_cons, List.flatten_nil,
      List.append_nil]
    exact hKstr

/-- Witness for C3 at the input `"a b\nc\n"`. -/
theorem claim_C3_witness :
    tokenizeNL "a b\nc\n".toList ≠ [] ∧ tokenizeWS "a b\nc\n".toList ≠ [] ∧
    normalDiff (differBlocks false (tokenizeNL "a b\nc\n".toList)
      (tokenizeNL "a b\nc\n".toList)) = [] :=
  ⟨by decide, by decide,
    (claim_C3 false 3 "a b\nc\n".toList (by decide) (by decide)).2.1⟩

/-- Counterexample to C3 as stated: the word diff of `"a"` against itself is
`"a"`, not the empty string, and the self-diff of the empty input has zero
blocks rather than one common block. -/
theorem claim_C3_counterexample :
    wordDiffOf false ['a'] ['a'] = ['a'] ∧
    ¬ wordDiffOf false ['a'] ['a'] = [] ∧
    differBlocks false (tokenizeNL []) (tokenizeNL []) = [] := by
  decide

/-- C4 (amended): swapping each block's sides and exchanging the
left-only/right-only labels turns the alignment of `(a, b)` into the alignment
of `(b, a)` whenever the matcher's block list for the swapped inputs is the
mirror image of the original one; the matcher's earliest-in-a tie-break is not
symmetric, so this premiss (and the claim) can fail. -/
theorem claim_C4 (ign : Bool) (atoks btoks : List Token)
    (hmb : matchingBlocks (tokenKeys ign btoks) (tokenKeys ign atoks)
         = (matchingBlocks (tokenKeys ign atoks) (tokenKeys ign btoks)).map mirrorMBT) :
    differBlocks ign btoks atoks = (differBlocks ign atoks btoks).map swapDelta := by
  rw [differBlocks, differBlocks, blocksGo_swap, ← hmb]

/-- Witness for C4 on the line tokenizations of `"a\nb\n"` and `"a\nx\n"`. -/
theorem claim_C4_witness :
    matchingBlocks (tokenKeys false (tokenizeNL "a\nx\n".toList))
        (tokenKeys false (tokenizeNL "a\nb\n".toList))
      = (matchingBlocks (tokenKeys false (tokenizeNL "a\nb\n".toList))
          (tokenKeys false (tokenizeNL "a\nx\n".toList))).map mirrorMBT ∧
    differBlocks false (tokenizeNL "a\nx\n".toList) (tokenizeNL "a\nb\n".toList)
      = (differBlocks false (tokenizeNL "a\nb\n".toList)
          (tokenizeNL "a\nx\n".toList)).map swapDelta :=
  ⟨by decide, claim_C4 false _ _ (by decide)⟩

/-- Counterexample to C4 as stated: for `"x y"` against `"y x"` both diff
orders yield [right-only, common, left-only], so swapping sides and labels
does not reproduce the alignment of the swapped inputs. -/
theorem claim_C4_counterexample :
    (differBlocks false (tokenizeWS "x y".toList) (tokenizeWS "y x".toList)).map swapDelta
      ≠ differBlocks false (tokenizeWS "y x".toList) (tokenizeWS "x y".toList) := by
  decide

/-- C5 (amended): two change blocks separated by a common block of at most
`2*C` lines are merged into one hunk which keeps that common block untrimmed;
for `C ≥ 1`, a newline-terminated common block of more than `2*C` lines ends
the hunk, which keeps exactly `C` leading lines of it as trailing context,
and the next hunk starts with exactly `C` (not merely at most `C`) trailing
lines of the same common block as its leading context. Both boundary cases of
the original claim fail (see the counterexample): at `C = 0` the Python slice
`ls[-0:]` keeps the whole list, so the next hunk's leading context is the
entire common block; and a common block with empty separator (the input's
last line is unterminated) can be trimmed to fewer than `C` context lines,
e.g. 0 lines at `C = 1` when the kept leading line is empty. -/
theorem claim_C5 (ctx : Nat) (acc : List Delta) (d1 m d2 : Delta)
    (rest : List Delta) (fuel : Nat) :
    (countlines (tokStr m.lhs) ≤ ctx * 2 →
      ∃ t, (innerLoop ctx acc (d1 :: m :: d2 :: rest)).1
        = acc ++ d1 :: m :: d2 :: t) ∧
    (1 ≤ ctx → m.lhs.sep = ['\n'] → ctx * 2 < countlines (tokStr m.lhs) →
      innerLoop ctx acc (d1 :: m :: d2 :: rest)
          = (acc ++ [d1, (trimDelta ctx m TrimDir.head true).1], some m, d2 :: rest) ∧
        (trimDelta ctx m TrimDir.head true).1.op = Op.c ∧
        countlines (tokStr (trimDelta ctx m TrimDir.head true).1.lhs) = ctx ∧
        countlines (tokStr (trimDelta ctx m TrimDir.tail false).1.lhs) = ctx ∧
        (∃ t2, (outerF ctx (fuel + 1) (some m) (d2 :: rest)).head?
            = some ((trimDelta ctx m TrimDir.tail false).1 :: d2 :: t2))) := by
  constructor
  · intro hm
    rw [innerLoop_merge ctx acc d1 m d2 rest hm]
    obtain ⟨t, ht⟩ := innerLoop_starts ctx rest.length rest (le_refl _)
      (acc ++ [d1, m]) d2
    refine ⟨t, ?_⟩
    rw [ht]
    simp
  · intro h1 h2 h3
    have hspec := trimDelta_head_spec ctx m h1 h2 h3
    have htspec := trimDelta_tail_spec ctx m h1 h2 h3
    refine ⟨innerLoop_break ctx acc d1 m d2 rest hspec.1, hspec.2.1,
      hspec.2.2.2, htspec.2.2.2, ?_⟩
    rw [outerF_some_cons]
    obtain ⟨t2, ht2⟩ := innerLoop_starts ctx rest.length rest (le_refl _)
      [(trimDelta ctx m TrimDir.tail false).1] d2
    refine ⟨t2, ?_⟩
    rw [List.head?_cons, ht2]
    rfl

/-- Witness for C5 at `C = 1` with a four-line common block: the hunk breaks
and both the outgoing and incoming context keep exactly one line. -/
theorem claim_C5_witness :
    1 * 2 < countlines (tokStr (Delta.lhs ⟨Op.c, ⟨"1\n2\n3".toList, ['\n'], 1⟩,
        ⟨"1\n2\n3".toList, ['\n'], 1⟩⟩)) ∧
    countlines (tokStr (trimDelta 1 ⟨Op.c, ⟨"1\n2\n3".toList, ['\n'], 1⟩,
        ⟨"1\n2\n3".toList, ['\n'], 1⟩⟩ TrimDir.tail false).1.lhs) = 1 :=
  ⟨by decide,
    ((claim_C5 1 [] ⟨Op.d, ⟨['a'], ['\n'], 0⟩, ⟨['b'], ['\n'], 0⟩⟩
        ⟨Op.c, ⟨"1\n2\n3".toList, ['\n'], 1⟩, ⟨"1\n2\n3".toList, ['\n'], 1⟩⟩
        ⟨Op.d, ⟨['e'], ['\n'], 4⟩, ⟨['f'], ['\n'], 4⟩⟩ [] 1).2
      (by decide) (by decide) (by decide)).2.2.2.1⟩

set_option maxRecDepth 4000 in
/-- Counterexample to C5 as stated, in both boundary cases. At `C = 0` the
block stream of `"1\n2\n3\n"` vs `"X\n2\nY\n"` is split into two hunks and the
second hunk's leading context block keeps 1 line of the common block although
at most `C = 0` lines were claimed (Python's `ls[-0:]` keeps the whole list).
At `C = 1` the stream of `"A\n\n\n\nc"` vs `"B\n\n\n\nc\nX"` has an interior
common block of 4 lines with empty separator (the input's last line is
unterminated); the first hunk's outgoing context block keeps 0 of its lines,
not exactly `C = 1`. -/
theorem claim_C5_counterexample :
    ((contextBlocks 0 (differBlocks false (tokenizeNL "1\n2\n3\n".toList)
        (tokenizeNL "X\n2\nY\n".toList))).map (List.map Delta.op)
      = [[Op.d, Op.c], [Op.c, Op.d]] ∧
     countlines (tokStr ((((contextBlocks 0 (differBlocks false
        (tokenizeNL "1\n2\n3\n".toList)
        (tokenizeNL "X\n2\nY\n".toList))).getD 1 []).headD default).lhs)) = 1) ∧
    ((differBlocks false (tokenizeNL "A\n\n\n\nc".toList)
        (tokenizeNL "B\n\n\n\nc\nX".toList)).map Delta.op = [Op.d, Op.c, Op.r] ∧
     countlines (tokStr ((differBlocks false (tokenizeNL "A\n\n\n\nc".toList)
        (tokenizeNL "B\n\n\n\nc\nX".toList)).getD 1 default).lhs) = 4 ∧
     ((differBlocks false (tokenizeNL "A\n\n\n\nc".toList)
        (tokenizeNL "B\n\n\n\nc\nX".toList)).getD 1 default).lhs.sep = [] ∧
     (contextBlocks 1 (differBlocks false (tokenizeNL "A\n\n\n\nc".toList)
        (tokenizeNL "B\n\n\n\nc\nX".toList))).map (List.map Delta.op)
      = [[Op.d, Op.c], [Op.c, Op.r]] ∧
     countlines (tokStr (((contextBlocks 1 (differBlocks false
        (tokenizeNL "A\n\n\n\nc".toList)
        (tokenizeNL "B\n\n\n\nc\nX".toList))).headD []).getD 1 default).lhs) = 0) := by
  decide

/-- C6: the unified diff with context size 1 of the five-line input
`"1\n2\n3\n4\n5\n"` against `"1\n2\nX\n4\n5\n"` is exactly one hunk with
header line `@@ -2,3 +2,3 @@` followed by the lines ` 2`, `-3`, `+X`, ` 4`,
each newline-terminated. -/
theorem claim_C6 :
    unifiedDiffOf 1 false "1\n2\n3\n4\n5\n".toList "1\n2\nX\n4\n5\n".toList
      = "@@ -2,3 +2,3 @@\n 2\n-3\n+X\n 4\n".toList := by
  decide

/-- C7: for a Normal-renderer hunk over a block of the differ whose separators
are line-shaped, lines prefixed `"< "` and the `"---"` separator line appear
only when the lhs token is present, lines prefixed `"> "` and the `"---"` line
only when the rhs token is present; in particular a left-only block yields no
`"---"` line and no `"> "` lines, and a right-only block yields no `"< "`
lines and no `"---"` line. -/
theorem claim_C7 (ign : Bool) (atoks btoks : List Token) (b : Delta)
    (hb : b ∈ differBlocks ign atoks btoks)
    (hls : sepNormal b.lhs) (hrs : sepNormal b.rhs) :
    (tokTruthy b.lhs = false →
      ∀ l ∈ splitlines (normalHunk b), ¬ (['<', ' '] <+: l) ∧ l ≠ ['-', '-', '-']) ∧
    (tokTruthy b.rhs = false →
      ∀ l ∈ splitlines (normalHunk b), ¬ (['>', ' '] <+: l) ∧ l ≠ ['-', '-', '-']) ∧
    (b.op = Op.l →
      ∀ l ∈ splitlines (normalHunk b), ¬ (['>', ' '] <+: l) ∧ l ≠ ['-', '-', '-']) ∧
    (b.op = Op.r →
      ∀ l ∈ splitlines (normalHunk b), ¬ (['<', ' '] <+: l) ∧ l ≠ ['-', '-', '-']) := by
  refine ⟨normalHunk_lhs_absent b hrs, normalHunk_rhs_absent b hls, ?_, ?_⟩
  · intro hop
    exact normalHunk_rhs_absent b hls
      ((differBlocks_side_falsy ign atoks btoks b hb).1 hop)
  · intro hop
    exact normalHunk_lhs_absent b hrs
      ((differBlocks_side_falsy ign atoks btoks b hb).2 hop)

/-- Witness for C7 on the left-only block of diffing `"x\n"` against `""`. -/
theorem claim_C7_witness :
    (⟨Op.l, ⟨['x'], ['\n'], 0⟩, ⟨[], [], -1⟩⟩ : Delta)
        ∈ differBlocks false (tokenizeNL "x\n".toList) (tokenizeNL []) ∧
    ((⟨Op.l, ⟨['x'], ['\n'], 0⟩, ⟨[], [], -1⟩⟩ : Delta).op = Op.l →
      ∀ l ∈ splitlines (normalHunk ⟨Op.l, ⟨['x'], ['\n'], 0⟩, ⟨[], [], -1⟩⟩),
        ¬ (['>', ' '] <+: l) ∧ l ≠ ['-', '-', '-']) :=
  ⟨by decide,
    (claim_C7 false (tokenizeNL "x\n".toList) (tokenizeNL [])
      ⟨Op.l, ⟨['x'], ['\n'], 0⟩, ⟨[], [], -1⟩⟩ (by decide)
      (Or.inl rfl) (Or.inr rfl)).2.2.1⟩

/-- C8: a token is falsy exactly when both its word and its separator are
empty; the placeholder tokens `⟨[], [], i-1⟩` manufactured for the absent side
of a one-sided delta are falsy, and in every block stream of the differ the
absent side of a left-only or right-only block is a falsy token. -/
theorem claim_C8 (ign : Bool) (atoks btoks : List Token) :
    (∀ t : Token, tokTruthy t = false ↔ (t.word = [] ∧ t.sep = [])) ∧
    (∀ z : Int, tokTruthy ⟨[], [], z⟩ = false) ∧
    (∀ d ∈ differBlocks ign atoks btoks,
      (d.op = Op.l → tokTruthy d.rhs = false) ∧
      (d.op = Op.r → tokTruthy d.lhs = false)) := by
  refine ⟨?_, ?_, differBlocks_side_falsy ign atoks btoks⟩
  · intro t
    rcases t with ⟨w, s, z⟩
    simp [tokTruthy]
  · intro z
    rfl

/-- C9: every block stream the differ emits alternates strictly between
common and non-common blocks, for all valid tokenizations of the two inputs. -/
theorem claim_C9 (ign : Bool) (msa msb : List (Nat × Nat)) (a b : Str)
    (ha : validMatches a.length 0 msa = true)
    (hb : validMatches b.length 0 msb = true) :
    Alternating (differBlocks ign (tokenize msa a) (tokenize msb b)) :=
  differBlocks_alternating ign _ _ (tokenize_allTruthy msa a ha)
    (tokenize_allTruthy msb b hb)

/-- Witness for C9 on the line tokenizations of `"1\n2\n3\n"` and
`"X\n2\nY\n"`. -/
theorem claim_C9_witness :
    validMatches ("1\n2\n3\n".toList).length 0 (nlMatches "1\n2\n3\n".toList) = true ∧
    Alternating (differBlocks false
      (tokenize (nlMatches "1\n2\n3\n".toList) "1\n2\n3\n".toList)
      (tokenize (nlMatches "X\n2\nY\n".toList) "X\n2\nY\n".toList)) :=
  ⟨by decide, claim_C9 false _ _ _ _ (by decide) (by decide)⟩

/-- C10: the word-diff renderer emits a common block as the left side's text,
`lhs.word ++ lhs.sep`; consequently when two inputs differ only in separator
text inside a common run, the output reproduces the left input's separators,
as in `adiff -w` of `"a b"` against `"a  b"` printing `"a b"`. -/
theorem claim_C10 (sd ed si ei : Str) (b : Delta) (hop : b.op = Op.c) :
    wordHunk sd ed si ei b = b.lhs.word ++ b.lhs.sep ∧
    wordDiffOf false "a b".toList "a  b".toList = "a b".toList := by
  constructor
  · rcases b with ⟨op, L, R⟩
    have h2 : op = Op.c := hop
    subst h2
    rfl
  · decide

/-- Witness for C10 on a common block whose rhs separator differs from the
lhs separator. -/
theorem claim_C10_witness :
    (⟨Op.c, ⟨['a'], [' '], 0⟩, ⟨['a'], ['\t'], 0⟩⟩ : Delta).op = Op.c ∧
    (wordHunk [] [] [] [] ⟨Op.c, ⟨['a'], [' '], 0⟩, ⟨['a'], ['\t'], 0⟩⟩
        = ['a'] ++ [' '] ∧
      wordDiffOf false "a b".toList "a  b".toList = "a b".toList) :=
  ⟨rfl, claim_C10 [] [] [] [] ⟨Op.c, ⟨['a'], [' '], 0⟩, ⟨['a'], ['\t'], 0⟩⟩ rfl⟩
